import Mathlib

/-!
Verification of the dynamic-workflow engine of skynet-mcp.

This file gives a shallow embedding of the `WorkflowManager` class
(types `WorkflowStep`, `DynamicWorkflow`, `WorkflowResult`, and the methods
`validateWorkflow`, `findReachableSteps`, `checkForCircularReferences`,
`executeWorkflow` / `executeStep`) together with the tool dispatcher
`DynamicAgent.callToolIfAvailable`, and proves properties of the embedded
code.

Embedding conventions:
* JavaScript `Set` objects are embedded as duplicate-free `List String`
  values manipulated by `insertSet` (Set.add) and `List.erase` (Set.delete).
* JavaScript objects used as string-keyed maps (`stepResults`) are embedded
  as association lists with `setKey` modelling keyed assignment
  (overwrite in place if the key exists, append otherwise, which matches
  JS insertion-order semantics).
* A thrown exception is embedded as `Except.error` carrying the message
  string; the `WorkflowResult` object mutated in place by the source is
  threaded explicitly, and an error during execution carries the state of
  that object at throw time, exactly as the caught object does in JS.
* The recursive functions `traverse` (inside `findReachableSteps`),
  `checkStep` (inside `checkForCircularReferences`) and `executeStep` are
  embedded in defunctionalized form: the implicit JS call stack becomes an
  explicit list of frames, each frame holding the current step id and its
  not-yet-visited successor list.  The visit order, the state updates and
  the produced errors are those of the source recursion.
* Calls to the language model, the tool executor and the child-agent
  spawner are embedded as an explicit environment of oracle functions.
  Prompt strings sent to the language model are abstracted to the data
  they interpolate (step description, task, completed steps, results,
  condition text); nothing in the code inspects the prompt after building
  it, so no behavior is lost.
* JS truthiness on optional strings (`if (step.tool)`) is embedded by
  `isTruthyStr`: `undefined` and the empty string are falsy.
-/

namespace SkynetWF

/-- Type of a tool invocation result (source interface `ToolResponse`). -/
structure ToolResponse where
  serverName : String
  toolName : String
  result : String
deriving DecidableEq

/-- Tool parameters: a JS `Record<string, unknown>` restricted to the
string-valued entries the embedded code ever reads. -/
def Params := List (String × String)
deriving DecidableEq

/-- Branching data of a step (source field `condition: {if, then, else}`;
`if`/`then`/`else` are Lean keywords, so the fields are prefixed). -/
structure StepCondition where
  condIf : String
  condThen : List String
  condElse : List String
deriving DecidableEq

/-- Sub-agent delegation data of a step (source field `childAgent`). -/
structure ChildAgentSpec where
  task : String
  tools : List String
deriving DecidableEq

/-- Source interface `WorkflowStep`. -/
structure WorkflowStep where
  id : String
  description : String
  tool : Option String := none
  toolParameters : Option Params := none
  condition : Option StepCondition := none
  childAgent : Option ChildAgentSpec := none
  nextSteps : List String
deriving DecidableEq

/-- Source interface `DynamicWorkflow`. -/
structure DynamicWorkflow where
  task : String
  steps : List WorkflowStep
  expectedOutput : String
deriving DecidableEq

/-- Source type `WorkflowStatus`. -/
inductive WorkflowStatus where
  | pending
  | inProgress
  | completed
  | failed
deriving DecidableEq

/-- Value recorded for one executed step (`unknown` in the source; the
code only ever stores a string or `null`, embedded as `Option String`). -/
def StepValue := Option String
deriving DecidableEq

/-- Source interface `WorkflowResult` (the `data` field is never written
by `executeWorkflow`, so it is omitted). -/
structure WorkflowResult where
  status : WorkflowStatus
  error : Option String := none
  completedSteps : List String
  stepResults : List (String × StepValue)
deriving DecidableEq

/-- Source interface `AvailableTool`. -/
structure AvailableTool where
  name : String
  description : String
  serverName : String
deriving DecidableEq

/-- Source interface `WorkflowManagerConfig`. -/
structure WorkflowManagerConfig where
  tools : List AvailableTool
  maxSteps : Option Nat := none
  timeout : Option Nat := none
  maxChildAgents : Option Nat := none
deriving DecidableEq

/-- Constructor of `WorkflowManager`: spreads the supplied config over the
defaults `{maxSteps: 10, timeout: 300000, maxChildAgents: 3}`. -/
def mkManagerConfig (config : WorkflowManagerConfig) : WorkflowManagerConfig :=
  { tools := config.tools
    maxSteps := some (config.maxSteps.getD 10)
    timeout := some (config.timeout.getD 300000)
    maxChildAgents := some (config.maxChildAgents.getD 3) }

/-- JS truthiness of an optional string: `undefined` and `""` are falsy. -/
def isTruthyStr : Option String → Bool
  | none => false
  | some s => s ≠ ""

/-- The step lookup idiom `workflow.steps.find(s => s.id === stepId)`. -/
def stepOf (wf : DynamicWorkflow) (stepId : String) : Option WorkflowStep :=
  wf.steps.find? (fun s => s.id == stepId)

/-- Successor list of an id: the `nextSteps` of the first step carrying
that id, `[]` when no step does. -/
def nextsOf (wf : DynamicWorkflow) (stepId : String) : List String :=
  match stepOf wf stepId with
  | none => []
  | some s => s.nextSteps

/-- One edge of the successor relation built from `nextSteps`. -/
def Edge (wf : DynamicWorkflow) (u v : String) : Prop :=
  v ∈ nextsOf wf u

/-- The list `l` is a chain of `nextSteps` edges starting at `u`. -/
def EdgeChain (wf : DynamicWorkflow) : String → List String → Prop
  | _, [] => True
  | u, v :: l => Edge wf u v ∧ EdgeChain wf v l

/-- Vertex `v` is reachable from `u` along `nextSteps` edges. -/
def ReachableFrom (wf : DynamicWorkflow) (u v : String) : Prop :=
  ∃ l, EdgeChain wf u l ∧ v ∈ u :: l

/-- A nonempty `nextSteps` chain from `v` back to `v`. -/
def CycleAt (wf : DynamicWorkflow) (v : String) : Prop :=
  ∃ l, EdgeChain wf v l ∧ l.getLast? = some v

/-- JS `Set.add` on a set embedded as a duplicate-free list. -/
def insertSet (l : List String) (x : String) : List String :=
  if x ∈ l then l else l ++ [x]

/-- Per-step checks of `validateWorkflow`: the inner loop over
`step.nextSteps` checking that every referenced id exists. -/
def checkNextStepsExist (wf : DynamicWorkflow) (step : WorkflowStep) :
    List String → Except String Unit
  | [] => Except.ok ()
  | n :: rest =>
    if wf.steps.any (fun s => s.id == n) then
      checkNextStepsExist wf step rest
    else
      Except.error ("Step " ++ step.id ++ " references non-existent next step: " ++ n)

/-- Per-step checks of `validateWorkflow`: the `for (const step of
workflow.steps)` loop (id present, description present, known tool,
existing next steps).  The `Array.isArray(step.nextSteps)` check cannot
fail in the typed embedding. -/
def validateSteps (config : WorkflowManagerConfig) (wf : DynamicWorkflow) :
    List WorkflowStep → Except String Unit
  | [] => Except.ok ()
  | step :: rest =>
    if step.id = "" then
      Except.error "All steps must have an ID"
    else if step.description = "" then
      Except.error ("Step " ++ step.id ++ " must have a description")
    else if isTruthyStr step.tool &&
        !(config.tools.any (fun t => t.name == step.tool.getD "")) then
      Except.error ("Step " ++ step.id ++ " uses an unknown tool: " ++ step.tool.getD "")
    else
      match checkNextStepsExist wf step step.nextSteps with
      | Except.error e => Except.error e
      | Except.ok () => validateSteps config wf rest

/-- All ids that can ever be looked up or pushed during a graph walk:
declared step ids plus every id referenced from some `nextSteps` list.
Used only as a termination measure. -/
def idUniverse (wf : DynamicWorkflow) : List String :=
  wf.steps.map (fun s => s.id) ++ wf.steps.flatMap (fun s => s.nextSteps)

/-- Number of universe ids not yet in `visited`; the decreasing measure of
every graph walk below. -/
def unseenCount (wf : DynamicWorkflow) (visited : List String) : Nat :=
  ((idUniverse wf).filter (fun x => !(decide (x ∈ visited)))).length

/-- Worklist form of the recursive `traverse` closure inside
`findReachableSteps`.  `reachable` accumulates visited ids in first-visit
order; `pending` is the stack of ids still to visit (the successors of the
step being expanded are pushed in front, so the visit order is exactly
that of the source depth-first recursion, which checks membership on
entry, records the id, then recurses over `step.nextSteps` in order). -/
def reachLoop (wf : DynamicWorkflow) (reachable : List String) :
    List String → List String
  | [] => reachable
  | n :: rest =>
    if hvis : n ∈ reachable then reachLoop wf reachable rest
    else
      match h : stepOf wf n with
      | none => reachLoop wf (reachable ++ [n]) rest
      | some step => reachLoop wf (reachable ++ [n]) (step.nextSteps ++ rest)
termination_by pending => (unseenCount wf reachable, pending.length)
decreasing_by
  · apply Prod.Lex.right
    simp
  · have hle : unseenCount wf (reachable ++ [n]) ≤ unseenCount wf reachable := by
      unfold unseenCount
      simp only [← List.countP_eq_length_filter]
      apply List.countP_mono_left
      intro x _ hx
      simp only [Bool.not_eq_true', decide_eq_false_iff_not] at hx ⊢
      exact fun hm => hx (by simp [hm])
    rcases Nat.lt_or_eq_of_le hle with hlt | heq
    · exact Prod.Lex.left _ _ hlt
    · rw [heq]
      apply Prod.Lex.right
      simp
  · apply Prod.Lex.left
    have hmem : step ∈ wf.steps := List.mem_of_find?_eq_some h
    have hid : step.id = n := by simpa using List.find?_some h
    have hU : n ∈ idUniverse wf := by
      unfold idUniverse
      exact List.mem_append_left _ (hid ▸ List.mem_map_of_mem (fun s => s.id) hmem)
    unfold unseenCount
    simp only [← List.countP_eq_length_filter]
    obtain ⟨u1, u2, hsplit⟩ := List.append_of_mem hU
    rw [hsplit]
    simp only [List.countP_append, List.countP_cons]
    have hmono : ∀ l : List String,
        l.countP (fun x => !(decide (x ∈ reachable ++ [n]))) ≤
          l.countP (fun x => !(decide (x ∈ reachable))) := by
      intro l
      apply List.countP_mono_left
      intro x _ hx
      simp only [Bool.not_eq_true', decide_eq_false_iff_not] at hx ⊢
      exact fun hm => hx (by simp [hm])
    have h1 : (!(decide (n ∈ reachable ++ [n]))) = false := by simp
    have h2 : (!(decide (n ∈ reachable))) = true := by simpa using hvis
    rw [h1, h2]
    have m1 := hmono u1
    have m2 := hmono u2
    have e1 : (if false = true then 1 else 0) = 0 := by simp
    have e2 : (if true = true then 1 else 0) = 1 := by simp
    rw [e1, e2]
    omega

/-- Source method `findReachableSteps`: all ids reachable from the first
step, in first-visit order.  The source dereferences `steps[0]` without a
guard; it is only called after the nonemptiness check of
`validateWorkflow`, and the embedding returns `[]` on the empty list. -/
def findReachableSteps (wf : DynamicWorkflow) : List String :=
  match wf.steps with
  | [] => []
  | s0 :: _ => reachLoop wf [] [s0.id]

/-- Gray/white state of the cycle-detecting walk: the `visited` and
`recStack` sets of `checkForCircularReferences`. -/
structure DfsState where
  visited : List String
  recStack : List String
deriving DecidableEq

/-- Error message of the cycle check. -/
def circularMsg (n : String) : String :=
  "Circular reference detected: " ++ n ++ " is referenced in a cycle"

/-- Defunctionalized form of the recursive `checkStep` closure inside
`checkForCircularReferences`.  Each frame `(o, pending)` is one active
`checkStep(o)` invocation with `pending` the successors its loop has not
yet examined; popping a finished frame performs the trailing
`recStack.delete(o)`.  An unvisited successor with no matching step runs
the empty loop immediately (add then delete on `recStack`); an unvisited
successor with a step becomes a new frame.  A visited successor still on
`recStack` raises the circular-reference error, exactly as in the source
(the source re-checks `recStack.has` after a recursive call returns, but
that check is always false because the callee just deleted itself). -/
def cycleRun (wf : DynamicWorkflow) (st : DfsState) :
    List (String × List String) → Except String DfsState
  | [] => Except.ok st
  | (o, []) :: fs => cycleRun wf { st with recStack := st.recStack.erase o } fs
  | (o, n :: rest) :: fs =>
    if hvis : n ∈ st.visited then
      if n ∈ st.recStack then Except.error (circularMsg n)
      else cycleRun wf st ((o, rest) :: fs)
    else
      match h : stepOf wf n with
      | none =>
          cycleRun wf
            { visited := insertSet st.visited n
              recStack := (insertSet st.recStack n).erase n }
            ((o, rest) :: fs)
      | some step =>
          cycleRun wf
            { visited := insertSet st.visited n
              recStack := insertSet st.recStack n }
            ((n, step.nextSteps) :: (o, rest) :: fs)
termination_by fs => (unseenCount wf st.visited, (fs.map (fun f => f.2.length + 1)).sum)
decreasing_by
  · apply Prod.Lex.right
    simp
  · apply Prod.Lex.right
    simp [Nat.add_assoc]
  · have hins : insertSet st.visited n = st.visited ++ [n] := by
      unfold insertSet
      rw [if_neg hvis]
    have hle : unseenCount wf (st.visited ++ [n]) ≤ unseenCount wf st.visited := by
      unfold unseenCount
      simp only [← List.countP_eq_length_filter]
      apply List.countP_mono_left
      intro x _ hx
      simp only [Bool.not_eq_true', decide_eq_false_iff_not] at hx ⊢
      exact fun hm => hx (by simp [hm])
    rw [hins]
    rcases Nat.lt_or_eq_of_le hle with hlt | heq
    · exact Prod.Lex.left _ _ hlt
    · rw [heq]
      apply Prod.Lex.right
      simp [Nat.add_assoc]
  · apply Prod.Lex.left
    have hins : insertSet st.visited n = st.visited ++ [n] := by
      unfold insertSet
      rw [if_neg hvis]
    rw [hins]
    have hmem : step ∈ wf.steps := List.mem_of_find?_eq_some h
    have hid : step.id = n := by simpa using List.find?_some h
    have hU : n ∈ idUniverse wf := by
      unfold idUniverse
      exact List.mem_append_left _ (hid ▸ List.mem_map_of_mem (fun s => s.id) hmem)
    unfold unseenCount
    simp only [← List.countP_eq_length_filter]
    obtain ⟨u1, u2, hsplit⟩ := List.append_of_mem hU
    rw [hsplit]
    simp only [List.countP_append, List.countP_cons]
    have hmono : ∀ l : List String,
        l.countP (fun x => !(decide (x ∈ st.visited ++ [n]))) ≤
          l.countP (fun x => !(decide (x ∈ st.visited))) := by
      intro l
      apply List.countP_mono_left
      intro x _ hx
      simp only [Bool.not_eq_true', decide_eq_false_iff_not] at hx ⊢
      exact fun hm => hx (by simp [hm])
    have h1 : (!(decide (n ∈ st.visited ++ [n]))) = false := by simp
    have h2 : (!(decide (n ∈ st.visited))) = true := by simpa using hvis
    rw [h1, h2]
    have m1 := hmono u1
    have m2 := hmono u2
    have e1 : (if false = true then 1 else 0) = 0 := by simp
    have e2 : (if true = true then 1 else 0) = 1 := by simp
    rw [e1, e2]
    omega

/-- Source method `checkForCircularReferences`: run `checkStep` on the id
of the first step starting from empty `visited`/`recStack` sets.  The
initial `checkStep` call is inlined one level (its argument is never
visited, and its `find` necessarily returns the first step itself). -/
def checkForCircularReferences (wf : DynamicWorkflow) : Except String Unit :=
  match wf.steps with
  | [] => Except.ok ()
  | s0 :: _ =>
    match stepOf wf s0.id with
    | none => Except.ok ()
    | some step =>
      match cycleRun wf ⟨insertSet [] s0.id, insertSet [] s0.id⟩ [(s0.id, step.nextSteps)] with
      | Except.error e => Except.error e
      | Except.ok _ => Except.ok ()

/-- Source method `validateWorkflow`, in source order: task present, steps
nonempty, per-step checks, circular-reference check, terminal-step check,
reachability check.  Throwing is embedded as `Except.error` with the
thrown message, so the result is the first violation found, if any. -/
def validateWorkflow (config : WorkflowManagerConfig) (wf : DynamicWorkflow) :
    Except String Unit :=
  if wf.task = "" then Except.error "Workflow must have a task"
  else if wf.steps = [] then Except.error "Workflow must have at least one step"
  else
    match validateSteps config wf wf.steps with
    | Except.error e => Except.error e
    | Except.ok () =>
      match checkForCircularReferences wf with
      | Except.error e => Except.error e
      | Except.ok () =>
        if !(wf.steps.any (fun step => step.nextSteps.isEmpty)) then
          Except.error "Workflow must have at least one end step"
        else
          let reachable := findReachableSteps wf
          let unreachable := wf.steps.filter (fun step => !(reachable.contains step.id))
          if unreachable.isEmpty then Except.ok ()
          else
            Except.error ("Some steps are unreachable: " ++
              String.intercalate ", " (unreachable.map (fun s => s.id)))

/-- JS `toLowerCase`, embedded character-wise (the code only ever compares
against the ASCII token `"true"`). -/
def strToLower (s : String) : String :=
  String.mk (s.data.map Char.toLower)

/-- Prefix test on character lists (helper for the JS `includes` test).
Duplicates `List.isPrefixOf` with a definition the kernel can unfold. -/
def listStartsWith : List Char → List Char → Bool
  | [], _ => true
  | _ :: _, [] => false
  | p :: ps, c :: cs => p == c && listStartsWith ps cs

/-- Substring occurrence test on character lists. -/
def listIncludes (pat : List Char) : List Char → Bool
  | [] => listStartsWith pat []
  | c :: cs => listStartsWith pat (c :: cs) || listIncludes pat cs

/-- JS `String.prototype.includes`. -/
def strIncludes (s pat : String) : Bool :=
  listIncludes pat.data s.data

/-- The condition-evaluation criterion of `executeStep`:
`conditionResponse.content.toLowerCase().includes('true')`. -/
def containsTrue (s : String) : Bool :=
  strIncludes (strToLower s) "true"

/-- Data interpolated into a prompt for `this.llm.complete` during
execution: either a direct-reasoning step (description, task, completed
steps and previous results in completion order) or a condition
evaluation (condition text and the current step result). -/
inductive LlmQuery where
  | processStep (description task : String) (completedSteps : List String)
      (stepResults : List (String × StepValue))
  | evalCondition (condIf : String) (stepResult : StepValue)
deriving DecidableEq

/-- The three external collaborators of `executeWorkflow`: the
`toolExecutor` and `spawnChildAgent` callbacks and `this.llm.complete`.
`Except.error` models a rejected promise (a thrown error). -/
structure ExecEnv where
  toolExecutor : String → Params → Except String (Option ToolResponse)
  spawnChildAgent : String → List String → Except String String
  llmComplete : LlmQuery → Except String String

/-- Keyed assignment `result.stepResults[stepId] = v` on the association
list embedding of a JS object (overwrite in place, else append). -/
def setKey (m : List (String × StepValue)) (k : String) (v : StepValue) :
    List (String × StepValue) :=
  if m.any (fun p => p.1 == k) then
    m.map (fun p => if p.1 == k then (k, v) else p)
  else m ++ [(k, v)]

/-- Key-presence test on the association list embedding of a JS object. -/
def hasKey (m : List (String × StepValue)) (k : String) : Bool :=
  m.any (fun p => p.1 == k)

/-- Lines 460-462 of the source: record the step result, then push the
step id onto `completedSteps`. -/
def recordStep (res : WorkflowResult) (n : String) (v : StepValue) : WorkflowResult :=
  { res with
    stepResults := setKey res.stepResults n v
    completedSteps := res.completedSteps ++ [n] }

/-- Body of one `executeStep` call, keyed on the step shape exactly as in
the source: a truthy `tool` runs the tool executor (`toolResponse?.result
|| null` maps a missing tool or an empty result string to `null`);
otherwise a present `childAgent` spawns a child; otherwise the step is
processed directly by the language model. -/
def execBody (wf : DynamicWorkflow) (env : ExecEnv) (res : WorkflowResult)
    (step : WorkflowStep) : Except String StepValue :=
  if isTruthyStr step.tool then
    match env.toolExecutor (step.tool.getD "") (step.toolParameters.getD []) with
    | Except.error e => Except.error e
    | Except.ok tr =>
      Except.ok
        (match tr with
        | none => none
        | some r => if r.result = "" then none else some r.result)
  else
    match step.childAgent with
    | some ca =>
      match env.spawnChildAgent ca.task ca.tools with
      | Except.error e => Except.error e
      | Except.ok s => Except.ok (some s)
    | none =>
      match env.llmComplete
          (LlmQuery.processStep step.description wf.task res.completedSteps res.stepResults) with
      | Except.error e => Except.error e
      | Except.ok s => Except.ok (some s)

/-- Lines 464-482 of the source: the active successor set — `nextSteps`,
replaced by the branch selected by the language model when the step has a
`condition`. -/
def selectNexts (env : ExecEnv) (step : WorkflowStep) (stepResult : StepValue) :
    Except String (List String) :=
  match step.condition with
  | none => Except.ok step.nextSteps
  | some c =>
    match env.llmComplete (LlmQuery.evalCondition c.condIf stepResult) with
    | Except.error e => Except.error e
    | Except.ok s =>
      Except.ok (if containsTrue s then c.condThen else c.condElse)

/-- Message of the throw at line 408 of the source. -/
def stepNotFoundMsg (n : String) : String :=
  "Step " ++ n ++ " not found in workflow"

/-- Message of the rethrow at line 498 of the source (each `executeStep`
frame wraps any error escaping its body). -/
def stepFailedMsg (n e : String) : String :=
  "Failed to execute step " ++ n ++ ": " ++ e

/-- An error unwinding through the active `executeStep` frames is wrapped
once per frame, innermost first; the bottom frame of `executeWorkflow`
itself (owner `none`) does not wrap. -/
def wrapFrames (fs : List (Option String × List String)) (m : String) : String :=
  fs.foldl (fun acc f => match f.1 with | none => acc | some o => stepFailedMsg o acc) m

/-- Defunctionalized form of the recursive `executeStep`.  Each frame
`(some o, pending)` is an active `executeStep(o)` invocation whose
successor loop still has to dispatch `pending`; the bottom frame
`(none, [first.id])` is the initial dispatch from `executeWorkflow`.
Processing an id looks its step up (throwing `stepNotFoundMsg` if absent),
skips it when already completed, otherwise runs the body, records result
and id, selects the active successors and pushes them as a new frame.
Any thrown error aborts the whole walk, wrapped by every active frame and
carrying the `WorkflowResult` object as already mutated. -/
def execRun (wf : DynamicWorkflow) (env : ExecEnv) (res : WorkflowResult) :
    List (Option String × List String) → Except (String × WorkflowResult) WorkflowResult
  | [] => Except.ok res
  | (_, []) :: fs => execRun wf env res fs
  | (o, n :: rest) :: fs =>
    match h : stepOf wf n with
    | none => Except.error (wrapFrames ((o, rest) :: fs) (stepNotFoundMsg n), res)
    | some step =>
      if hdone : n ∈ res.completedSteps then execRun wf env res ((o, rest) :: fs)
      else
        match execBody wf env res step with
        | Except.error e =>
            Except.error (wrapFrames ((o, rest) :: fs) (stepFailedMsg n e), res)
        | Except.ok v =>
          match selectNexts env step v with
          | Except.error e =>
              Except.error (wrapFrames ((o, rest) :: fs) (stepFailedMsg n e), recordStep res n v)
          | Except.ok nexts =>
              execRun wf env (recordStep res n v) ((some n, nexts) :: (o, rest) :: fs)
termination_by fs => (unseenCount wf res.completedSteps, (fs.map (fun f => f.2.length + 1)).sum)
decreasing_by
  · apply Prod.Lex.right
    simp
  · apply Prod.Lex.right
    simp [Nat.add_assoc]
  · apply Prod.Lex.left
    have hrec : (recordStep res n v).completedSteps = res.completedSteps ++ [n] := rfl
    rw [hrec]
    have hmem : step ∈ wf.steps := List.mem_of_find?_eq_some h
    have hid : step.id = n := by simpa using List.find?_some h
    have hU : n ∈ idUniverse wf := by
      unfold idUniverse
      exact List.mem_append_left _ (hid ▸ List.mem_map_of_mem (fun s => s.id) hmem)
    unfold unseenCount
    simp only [← List.countP_eq_length_filter]
    obtain ⟨u1, u2, hsplit⟩ := List.append_of_mem hU
    rw [hsplit]
    simp only [List.countP_append, List.countP_cons]
    have hmono : ∀ l : List String,
        l.countP (fun x => !(decide (x ∈ res.completedSteps ++ [n]))) ≤
          l.countP (fun x => !(decide (x ∈ res.completedSteps))) := by
      intro l
      apply List.countP_mono_left
      intro x _ hx
      simp only [Bool.not_eq_true', decide_eq_false_iff_not] at hx ⊢
      exact fun hm => hx (by simp [hm])
    have h1 : (!(decide (n ∈ res.completedSteps ++ [n]))) = false := by simp
    have h2 : (!(decide (n ∈ res.completedSteps))) = true := by simpa using hdone
    rw [h1, h2]
    have m1 := hmono u1
    have m2 := hmono u2
    have e1 : (if false = true then 1 else 0) = 0 := by simp
    have e2 : (if true = true then 1 else 0) = 1 := by simp
    rw [e1, e2]
    omega

/-- The result object as initialized at the top of `executeWorkflow`. -/
def initialResult : WorkflowResult :=
  { status := WorkflowStatus.inProgress, error := none
    completedSteps := [], stepResults := [] }

/-- Source method `executeWorkflow`: build the in-progress result object,
dispatch the first step, then mark the mutated result `completed`, or on a
thrown error mark it `failed` with the error message (`config` is the
manager state `this.config`; the method never reads it).  An empty step
list makes `workflow.steps[0].id` throw a `TypeError` inside the `try`. -/
def executeWorkflow (config : WorkflowManagerConfig) (wf : DynamicWorkflow)
    (env : ExecEnv) : WorkflowResult :=
  match wf.steps with
  | [] => { initialResult with status := WorkflowStatus.failed
                               error := some "Cannot read properties of undefined" }
  | s0 :: _ =>
    match execRun wf env initialResult [(none, [s0.id])] with
    | Except.ok r => { r with status := WorkflowStatus.completed }
    | Except.error (m, r) =>
        { r with status := WorkflowStatus.failed, error := some m }

/-- JS string interpolation of a possibly missing parameter. -/
def paramStr (args : Params) (k : String) : String :=
  match args.lookup k with
  | some v => v
  | none => "undefined"

/-- JS `args.k || defaultText` for a string parameter. -/
def paramOr (args : Params) (k d : String) : String :=
  match args.lookup k with
  | some v => if v = "" then d else v
  | none => d

/-- Source method `DynamicAgent.callToolIfAvailable`: `null` when the tool
is not in `availableTools`, a simulated response for the four demo tools,
`null` for any other registered tool. -/
def callToolIfAvailable (availableTools : List AvailableTool) (toolName : String)
    (args : Params) : Option ToolResponse :=
  match availableTools.find? (fun t => t.name == toolName) with
  | none => none
  | some tool =>
    if toolName == "web_search" then
      some ⟨tool.serverName, toolName,
        "Simulated search results for query: " ++ paramStr args "query"⟩
    else if toolName == "document_analysis" then
      some ⟨tool.serverName, toolName,
        "Analysis of document: " ++ paramOr args "document" "No document provided"⟩
    else if toolName == "text_generation" then
      some ⟨tool.serverName, toolName,
        "Generated text based on prompt: " ++ paramOr args "prompt" "No prompt provided"⟩
    else if toolName == "calculate" then
      some ⟨tool.serverName, toolName,
        "Calculation result for: " ++ paramOr args "expression" "No expression provided"⟩
    else none

/-- Ghost-instrumented copy of `cycleRun` used only in proofs: identical
control flow and state, plus an accumulator `F` listing, in finishing
order, the vertices whose `checkStep` invocation has completed. -/
def cycleRunG (wf : DynamicWorkflow) (st : DfsState) :
    List (String × List String) → List String → Except String (DfsState × List String)
  | [], F => Except.ok (st, F)
  | (o, []) :: fs, F =>
      cycleRunG wf { st with recStack := st.recStack.erase o } fs (F ++ [o])
  | (o, n :: rest) :: fs, F =>
    if hvis : n ∈ st.visited then
      if n ∈ st.recStack then Except.error (circularMsg n)
      else cycleRunG wf st ((o, rest) :: fs) F
    else
      match h : stepOf wf n with
      | none =>
          cycleRunG wf
            { visited := insertSet st.visited n
              recStack := (insertSet st.recStack n).erase n }
            ((o, rest) :: fs) (F ++ [n])
      | some step =>
          cycleRunG wf
            { visited := insertSet st.visited n
              recStack := insertSet st.recStack n }
            ((n, step.nextSteps) :: (o, rest) :: fs) F
termination_by fs _ => (unseenCount wf st.visited, (fs.map (fun f => f.2.length + 1)).sum)
decreasing_by
  · apply Prod.Lex.right
    simp
  · apply Prod.Lex.right
    simp [Nat.add_assoc]
  · have hins : insertSet st.visited n = st.visited ++ [n] := by
      unfold insertSet
      rw [if_neg hvis]
    have hle : unseenCount wf (st.visited ++ [n]) ≤ unseenCount wf st.visited := by
      unfold unseenCount
      simp only [← List.countP_eq_length_filter]
      apply List.countP_mono_left
      intro x _ hx
      simp only [Bool.not_eq_true', decide_eq_false_iff_not] at hx ⊢
      exact fun hm => hx (by simp [hm])
    rw [hins]
    rcases Nat.lt_or_eq_of_le hle with hlt | heq
    · exact Prod.Lex.left _ _ hlt
    · rw [heq]
      apply Prod.Lex.right
      simp [Nat.add_assoc]
  · apply Prod.Lex.left
    have hins : insertSet st.visited n = st.visited ++ [n] := by
      unfold insertSet
      rw [if_neg hvis]
    rw [hins]
    have hmem : step ∈ wf.steps := List.mem_of_find?_eq_some h
    have hid : step.id = n := by simpa using List.find?_some h
    have hU : n ∈ idUniverse wf := by
      unfold idUniverse
      exact List.mem_append_left _ (hid ▸ List.mem_map_of_mem (fun s => s.id) hmem)
    unfold unseenCount
    simp only [← List.countP_eq_length_filter]
    obtain ⟨u1, u2, hsplit⟩ := List.append_of_mem hU
    rw [hsplit]
    simp only [List.countP_append, List.countP_cons]
    have hmono : ∀ l : List String,
        l.countP (fun x => !(decide (x ∈ st.visited ++ [n]))) ≤
          l.countP (fun x => !(decide (x ∈ st.visited))) := by
      intro l
      apply List.countP_mono_left
      intro x _ hx
      simp only [Bool.not_eq_true', decide_eq_false_iff_not] at hx ⊢
      exact fun hm => hx (by simp [hm])
    have h1 : (!(decide (n ∈ st.visited ++ [n]))) = false := by simp
    have h2 : (!(decide (n ∈ st.visited))) = true := by simpa using hvis
    rw [h1, h2]
    have m1 := hmono u1
    have m2 := hmono u2
    have e1 : (if false = true then 1 else 0) = 0 := by simp
    have e2 : (if true = true then 1 else 0) = 1 := by simp
    rw [e1, e2]
    omega

/-- Every element of `F` has all of its successors strictly earlier in
`F`: the finishing order of a completed depth-first walk. -/
def TopoList (wf : DynamicWorkflow) (F : List String) : Prop :=
  ∀ F₁ u F₂, F = F₁ ++ u :: F₂ → ∀ v, Edge wf u v → v ∈ F₁

/-- Per-frame bookkeeping of the cycle walk: each frame owner has already
dispatched the successors missing from its pending list, and each of those
is either finished or the owner of a frame lying above this one.
The first argument accumulates the owners of the frames above. -/
def FramesConsumed (wf : DynamicWorkflow) (F : List String) :
    List String → List (String × List String) → Prop
  | _, [] => True
  | above, (o, pending) :: fs =>
    (∃ consumed, nextsOf wf o = consumed ++ pending ∧
        ∀ c ∈ consumed, c ∈ F ∨ c ∈ above) ∧
      FramesConsumed wf F (o :: above) fs

/-- Invariant of the cycle walk relating the visited and gray sets, the
frame stack and the ghost finished list. -/
structure CycleInv (wf : DynamicWorkflow) (st : DfsState)
    (fs : List (String × List String)) (F : List String) : Prop where
  vis_eq : ∀ x, x ∈ st.visited ↔ (x ∈ F ∨ x ∈ st.recStack)
  disj : ∀ x, x ∈ F → x ∉ st.recStack
  nodupF : F.Nodup
  nodupR : st.recStack.Nodup
  stack_eq : ∀ x, x ∈ st.recStack ↔ x ∈ fs.map Prod.fst
  nodupO : (fs.map Prod.fst).Nodup
  topo : TopoList wf F
  cons : FramesConsumed wf F [] fs

/-- Fixture: a plain two-step linear workflow a → b. -/
def mkStep (i d : String) (ns : List String) : WorkflowStep :=
  { id := i, description := d, nextSteps := ns }

/-- Fixture: empty tool catalogue. -/
def cfgEmpty : WorkflowManagerConfig := { tools := [] }

/-- Fixture: a catalogue holding one unrelated tool. -/
def cfgOther : WorkflowManagerConfig :=
  { tools := [{ name := "other", description := "d", serverName := "s" }] }

/-- Fixture: a catalogue listing the tool missing, so workflows using it
validate even when the runtime registry lacks it. -/
def cfgMissing : WorkflowManagerConfig :=
  { tools := [{ name := "missing", description := "d", serverName := "s" }] }

/-- Fixture: linear workflow a → b with b terminal. -/
def wLinear : DynamicWorkflow :=
  { task := "t", steps := [mkStep "a" "da" ["b"], mkStep "b" "db" []], expectedOutput := "o" }

/-- Fixture: two-step cycle a → b → a. -/
def wCyc : DynamicWorkflow :=
  { task := "t", steps := [mkStep "a" "d" ["b"], mkStep "b" "d" ["a"]], expectedOutput := "o" }

/-- Fixture: two distinct steps sharing the id a. -/
def wDup : DynamicWorkflow :=
  { task := "t"
    steps := [mkStep "a" "d" [], { mkStep "a" "d" [] with tool := some "" }]
    expectedOutput := "o" }

/-- Fixture: branch whose targets reference the undefined id zz. -/
def wBr : DynamicWorkflow :=
  { task := "t"
    steps := [{ mkStep "a" "d" ["b"] with condition := some ⟨"p", ["zz"], ["zz"]⟩ },
      mkStep "b" "d" []]
    expectedOutput := "o" }

/-- Fixture: branch whose targets close a cycle back to a, invisible to
the `nextSteps`-only analyses. -/
def wBrCyc : DynamicWorkflow :=
  { task := "t"
    steps := [{ mkStep "a" "d" ["b"] with condition := some ⟨"p", ["a"], ["a"]⟩ },
      mkStep "b" "d" []]
    expectedOutput := "o" }

/-- Fixture: a branch step whose two branches are empty while its
`nextSteps` points at the terminal step b. -/
def wCondSkip : DynamicWorkflow :=
  { task := "t"
    steps := [{ mkStep "a" "da" ["b"] with condition := some ⟨"p", [], []⟩ },
      mkStep "b" "db" []]
    expectedOutput := "o" }

/-- Fixture: tool-call step for an absent tool, then a terminal
direct-reasoning step. -/
def wToolMiss : DynamicWorkflow :=
  { task := "t"
    steps := [{ mkStep "a" "da" ["b"] with tool := some "missing" }, mkStep "b" "db" []]
    expectedOutput := "o" }

/-- Fixture: one self-looping step with an unknown tool and no terminal
step — three invariants violated at once. -/
def wBad : DynamicWorkflow :=
  { task := "t"
    steps := [{ mkStep "a" "d" ["a"] with tool := some "nope" }]
    expectedOutput := "o" }

/-- Fixture: diamond graph a → {b, c}, b → d, c → d. -/
def wDiamond : DynamicWorkflow :=
  { task := "t"
    steps := [mkStep "a" "d" ["b", "c"], mkStep "b" "d" ["d"],
      mkStep "c" "d" ["d"], mkStep "d" "d" []]
    expectedOutput := "o" }

/-- Fixture environment: every oracle succeeds; the tool executor reports
every tool as not found. -/
def envOk : ExecEnv :=
  { toolExecutor := fun _ _ => Except.ok none
    spawnChildAgent := fun _ _ => Except.ok "child"
    llmComplete := fun _ => Except.ok "llmresp" }

/-- Fixture environment: direct-reasoning on description db rejects. -/
def envFailB : ExecEnv :=
  { envOk with
    llmComplete := fun q =>
      match q with
      | LlmQuery.processStep "db" _ _ _ => Except.error "boom"
      | _ => Except.ok "llmresp" }

/-! ### Unfolding lemmas for the execution walk -/

theorem execRun_nil (wf : DynamicWorkflow) (env : ExecEnv) (res : WorkflowResult) :
    execRun wf env res [] = Except.ok res := by
  rw [execRun]

theorem execRun_pop (wf : DynamicWorkflow) (env : ExecEnv) (res : WorkflowResult)
    (o : Option String) (fs : List (Option String × List String)) :
    execRun wf env res ((o, []) :: fs) = execRun wf env res fs := by
  rw [execRun]

theorem execRun_cons_none (wf : DynamicWorkflow) (env : ExecEnv) (res : WorkflowResult)
    (o : Option String) (n : String) (rest : List String)
    (fs : List (Option String × List String)) (h : stepOf wf n = none) :
    execRun wf env res ((o, n :: rest) :: fs) =
      Except.error (wrapFrames ((o, rest) :: fs) (stepNotFoundMsg n), res) := by
  rw [execRun]
  split
  · rfl
  · rename_i step heq
    rw [h] at heq
    cases heq

theorem execRun_cons_done (wf : DynamicWorkflow) (env : ExecEnv) (res : WorkflowResult)
    (o : Option String) (n : String) (rest : List String)
    (fs : List (Option String × List String)) (step : WorkflowStep)
    (h : stepOf wf n = some step) (hdone : n ∈ res.completedSteps) :
    execRun wf env res ((o, n :: rest) :: fs) = execRun wf env res ((o, rest) :: fs) := by
  rw [execRun]
  split
  · rename_i heq
    rw [h] at heq
    cases heq
  · rename_i step' heq
    rw [h] at heq
    cases heq
    rw [dif_pos hdone]

theorem execRun_cons_exec (wf : DynamicWorkflow) (env : ExecEnv) (res : WorkflowResult)
    (o : Option String) (n : String) (rest : List String)
    (fs : List (Option String × List String)) (step : WorkflowStep)
    (h : stepOf wf n = some step) (hdone : n ∉ res.completedSteps) :
    execRun wf env res ((o, n :: rest) :: fs) =
      (match execBody wf env res step with
      | Except.error e =>
          Except.error (wrapFrames ((o, rest) :: fs) (stepFailedMsg n e), res)
      | Except.ok v =>
        match selectNexts env step v with
        | Except.error e =>
            Except.error (wrapFrames ((o, rest) :: fs) (stepFailedMsg n e), recordStep res n v)
        | Except.ok nexts =>
            execRun wf env (recordStep res n v) ((some n, nexts) :: (o, rest) :: fs)) := by
  rw [execRun]
  split
  · rename_i heq
    rw [h] at heq
    cases heq
  · rename_i step' heq
    rw [h] at heq
    cases heq
    rw [dif_neg hdone]

/-! ### Execution-state invariants -/

theorem hasKey_setKey (m : List (String × StepValue)) (k : String) (v : StepValue)
    (x : String) :
    hasKey (setKey m k v) x = true ↔ (x = k ∨ hasKey m x = true) := by
  unfold hasKey setKey
  by_cases hp : m.any (fun p => p.1 == k) = true
  · rw [if_pos hp]
    have hmap : ∀ t : List (String × StepValue),
        (t.map (fun p => if p.1 == k then (k, v) else p)).any (fun p => p.1 == x) =
          t.any (fun p => p.1 == x) := by
      intro t
      induction t with
      | nil => rfl
      | cons a t ih =>
        simp only [List.map_cons, List.any_cons, ih]
        congr 1
        by_cases hk : (a.1 == k) = true
        · have hk' : a.1 = k := by simpa using hk
          simp [hk, hk']
        · have hk' : (a.1 == k) = false := by simpa using hk
          simp [hk']
    rw [hmap m]
    constructor
    · exact fun hx => Or.inr hx
    · rintro (rfl | hx)
      · simpa using hp
      · exact hx
  · rw [if_neg hp]
    rw [List.any_append]
    simp only [List.any_cons, List.any_nil, Bool.or_false, Bool.or_eq_true, beq_iff_eq]
    constructor
    · rintro (hx | hk)
      · exact Or.inr hx
      · exact Or.inl hk.symm
    · rintro (rfl | hx)
      · exact Or.inr rfl
      · exact Or.inl hx

theorem recordStep_inv {res : WorkflowResult} {n : String} {v : StepValue}
    (hnodup : res.completedSteps.Nodup)
    (hsync : ∀ x, x ∈ res.completedSteps ↔ hasKey res.stepResults x = true)
    (hnew : n ∉ res.completedSteps) :
    (recordStep res n v).completedSteps.Nodup ∧
      ∀ x, x ∈ (recordStep res n v).completedSteps ↔
        hasKey (recordStep res n v).stepResults x = true := by
  constructor
  · unfold recordStep
    simp only
    refine List.Nodup.append hnodup (List.nodup_singleton n) ?_
    intro a ha hb
    exact hnew ((List.mem_singleton.mp hb) ▸ ha)
  · intro x
    unfold recordStep
    simp only [List.mem_append, List.mem_singleton, hasKey_setKey, hsync x]
    tauto

theorem execRun_state_inv (wf : DynamicWorkflow) (env : ExecEnv) :
    ∀ (res : WorkflowResult) (fs : List (Option String × List String)),
      (res.completedSteps.Nodup ∧
        ∀ x, x ∈ res.completedSteps ↔ hasKey res.stepResults x = true) →
      ∀ r : WorkflowResult,
        (execRun wf env res fs = Except.ok r ∨
          ∃ m, execRun wf env res fs = Except.error (m, r)) →
        r.completedSteps.Nodup ∧
          ∀ x, x ∈ r.completedSteps ↔ hasKey r.stepResults x = true := by
  intro res fs
  induction res, fs using execRun.induct wf env with
  | case1 res =>
    intro hinv r hout
    rcases hout with hok | ⟨m, herr⟩
    · rw [execRun_nil] at hok
      cases hok
      exact hinv
    · rw [execRun_nil] at herr
      cases herr
  | case2 res o fs ih =>
    intro hinv r hout
    apply ih hinv r
    rwa [execRun_pop] at hout
  | case3 res o n rest fs hnone =>
    intro hinv r hout
    rw [execRun_cons_none wf env res o n rest fs hnone] at hout
    rcases hout with hok | ⟨m, herr⟩
    · cases hok
    · cases herr
      exact hinv
  | case4 res o n rest fs step hstep hdone ih =>
    intro hinv r hout
    apply ih hinv r
    rwa [execRun_cons_done wf env res o n rest fs step hstep hdone] at hout
  | case5 res o n rest fs step hstep hdone e hbody =>
    intro hinv r hout
    rw [execRun_cons_exec wf env res o n rest fs step hstep hdone, hbody] at hout
    dsimp only at hout
    rcases hout with hok | ⟨m, herr⟩
    · cases hok
    · cases herr
      exact hinv
  | case6 res o n rest fs step hstep hdone v hbody e hsel =>
    intro hinv r hout
    rw [execRun_cons_exec wf env res o n rest fs step hstep hdone, hbody] at hout
    dsimp only at hout
    rw [hsel] at hout
    dsimp only at hout
    rcases hout with hok | ⟨m, herr⟩
    · cases hok
    · cases herr
      exact recordStep_inv hinv.1 hinv.2 hdone
  | case7 res o n rest fs step hstep hdone v hbody nexts hsel ih =>
    intro hinv r hout
    apply ih (recordStep_inv hinv.1 hinv.2 hdone) r
    rw [execRun_cons_exec wf env res o n rest fs step hstep hdone, hbody] at hout
    dsimp only at hout
    rw [hsel] at hout
    dsimp only at hout
    exact hout

theorem executeWorkflow_state_inv (config : WorkflowManagerConfig)
    (wf : DynamicWorkflow) (env : ExecEnv) :
    (executeWorkflow config wf env).completedSteps.Nodup ∧
      ∀ x, x ∈ (executeWorkflow config wf env).completedSteps ↔
        hasKey (executeWorkflow config wf env).stepResults x = true := by
  have hinit : initialResult.completedSteps.Nodup ∧
      ∀ x, x ∈ initialResult.completedSteps ↔ hasKey initialResult.stepResults x = true := by
    refine ⟨List.nodup_nil, ?_⟩
    intro x
    simp [initialResult, hasKey]
  cases hsteps : wf.steps with
  | nil =>
    unfold executeWorkflow
    rw [hsteps]
    refine ⟨List.nodup_nil, ?_⟩
    intro x
    simp [initialResult, hasKey]
  | cons s0 l =>
    unfold executeWorkflow
    rw [hsteps]
    dsimp only
    cases hrun : execRun wf env initialResult [(none, [s0.id])] with
    | ok r =>
      dsimp only
      exact execRun_state_inv wf env initialResult [(none, [s0.id])] hinit r (Or.inl hrun)
    | error p =>
      obtain ⟨m, r⟩ := p
      dsimp only
      exact execRun_state_inv wf env initialResult [(none, [s0.id])] hinit r (Or.inr ⟨m, hrun⟩)

/-! ### C10: completed ids and recorded results coincide -/

/-- C10: whenever `executeWorkflow` returns, an id is in `completedSteps`
exactly when `stepResults` holds an entry (possibly null) for it. -/
theorem C10_completed_iff_recorded (config : WorkflowManagerConfig)
    (wf : DynamicWorkflow) (env : ExecEnv) (x : String) :
    x ∈ (executeWorkflow config wf env).completedSteps ↔
      hasKey (executeWorkflow config wf env).stepResults x = true :=
  (executeWorkflow_state_inv config wf env).2 x

/-! ### C4: a completed step is never re-executed -/

/-- C4: every run, successful or failed, records each step id at most once
(the re-entry guard), and on the diamond a → {b, c}, b → d, c → d the
step d is executed exactly once, in depth-first order. -/
theorem C4_step_executed_at_most_once (config : WorkflowManagerConfig)
    (wf : DynamicWorkflow) (env : ExecEnv) :
    (executeWorkflow config wf env).completedSteps.Nodup ∧
      (executeWorkflow cfgEmpty wDiamond envOk).completedSteps = ["a", "b", "d", "c"] ∧
      (executeWorkflow cfgEmpty wDiamond envOk).completedSteps.count "d" = 1 := by
  refine ⟨(executeWorkflow_state_inv config wf env).1, ?_, ?_⟩
  · simp [executeWorkflow, wDiamond, mkStep, envOk, execRun, stepOf, List.find?, execBody,
      isTruthyStr, selectNexts, recordStep, setKey, initialResult]
  · have hd : (executeWorkflow cfgEmpty wDiamond envOk).completedSteps = ["a", "b", "d", "c"] := by
      simp [executeWorkflow, wDiamond, mkStep, envOk, execRun, stepOf, List.find?, execBody,
        isTruthyStr, selectNexts, recordStep, setKey, initialResult]
    rw [hd]
    decide

/-! ### C2: an unrecoverable error fails the run and keeps partial state -/

/-- C2: when dispatch from the first step aborts with a thrown error, the
run returns status `failed`, the failure reason is the propagated error
message, and the `completedSteps` and `stepResults` recorded up to the
throw are returned unchanged. -/
theorem C2_failed_run_preserves_partial_state (config : WorkflowManagerConfig)
    (wf : DynamicWorkflow) (env : ExecEnv) (s0 : WorkflowStep) (l : List WorkflowStep)
    (m : String) (res : WorkflowResult)
    (hsteps : wf.steps = s0 :: l)
    (hrun : execRun wf env initialResult [(none, [s0.id])] = Except.error (m, res)) :
    executeWorkflow config wf env =
      { status := WorkflowStatus.failed, error := some m,
        completedSteps := res.completedSteps, stepResults := res.stepResults } := by
  unfold executeWorkflow
  rw [hsteps]
  dsimp only
  rw [hrun]

/-- C2 witness: on the linear workflow a → b where direct-reasoning on b
throws, the run is `failed` with the doubly wrapped message and keeps the
result of a. -/
theorem C2_witness :
    executeWorkflow cfgEmpty wLinear envFailB =
      { status := WorkflowStatus.failed,
        error := some "Failed to execute step a: Failed to execute step b: boom",
        completedSteps := ["a"], stepResults := [("a", some "llmresp")] } :=
  C2_failed_run_preserves_partial_state cfgEmpty wLinear envFailB
    (mkStep "a" "da" ["b"]) [mkStep "b" "db" []]
    "Failed to execute step a: Failed to execute step b: boom"
    { status := WorkflowStatus.inProgress, error := none,
      completedSteps := ["a"], stepResults := [("a", some "llmresp")] }
    rfl
    (by simp [wLinear, mkStep, envFailB, envOk, execRun, stepOf, List.find?, execBody,
      isTruthyStr, selectNexts, recordStep, setKey, initialResult, wrapFrames,
      stepFailedMsg, stepNotFoundMsg])

/-! ### C3: a missing tool is a recoverable failure -/

theorem lookup_map_overwrite (k : String) (v : StepValue) :
    ∀ t : List (String × StepValue), t.any (fun p => p.1 == k) = true →
      (t.map (fun p => if p.1 == k then (k, v) else p)).lookup k = some v := by
  intro t
  induction t with
  | nil =>
    intro h
    cases h
  | cons a t ih =>
    obtain ⟨a1, a2⟩ := a
    intro h
    simp only [List.map_cons]
    dsimp only
    by_cases hk : (a1 == k) = true
    · rw [if_pos hk, List.lookup_cons]
      simp
    · rw [if_neg hk]
      have hpt : t.any (fun p => p.1 == k) = true := by
        rcases List.any_eq_true.mp h with ⟨x, hx, hpx⟩
        rcases List.mem_cons.mp hx with rfl | hxm
        · exact absurd hpx hk
        · exact List.any_eq_true.mpr ⟨x, hxm, hpx⟩
      have hne : a1 ≠ k := by simpa using hk
      have hka : (k == a1) = false := beq_eq_false_iff_ne.mpr (Ne.symm hne)
      rw [List.lookup_cons, hka]
      exact ih hpt

theorem lookup_append_new (k : String) (v : StepValue) :
    ∀ t : List (String × StepValue), t.any (fun p => p.1 == k) = false →
      (t ++ [(k, v)]).lookup k = some v := by
  intro t
  induction t with
  | nil =>
    intro _
    rw [List.nil_append, List.lookup_cons]
    simp
  | cons a t ih =>
    obtain ⟨a1, a2⟩ := a
    intro h
    simp only [List.any_cons, Bool.or_eq_false_iff] at h
    have hka : (k == a1) = false :=
      beq_eq_false_iff_ne.mpr (Ne.symm (by simpa using h.1))
    rw [List.cons_append, List.lookup_cons, hka]
    exact ih h.2

theorem lookup_setKey_self (m : List (String × StepValue)) (k : String) (v : StepValue) :
    (setKey m k v).lookup k = some v := by
  unfold setKey
  by_cases hp : m.any (fun p => p.1 == k) = true
  · rw [if_pos hp]
    exact lookup_map_overwrite k v m hp
  · rw [if_neg hp]
    exact lookup_append_new k v m (Bool.eq_false_iff.mpr hp)

theorem stepOf_isSome_of_any {wf : DynamicWorkflow} {id : String}
    (h : wf.steps.any (fun s => s.id == id) = true) : (stepOf wf id).isSome = true := by
  unfold stepOf
  rw [List.find?_isSome]
  simpa using List.any_eq_true.mp h

theorem checkNextStepsExist_ok (wf : DynamicWorkflow) (step : WorkflowStep) :
    ∀ ns, checkNextStepsExist wf step ns = Except.ok () →
      ∀ id ∈ ns, wf.steps.any (fun s => s.id == id) = true := by
  intro ns
  induction ns with
  | nil =>
    intro _ id hid
    cases hid
  | cons a t ih =>
    intro h id hid
    unfold checkNextStepsExist at h
    by_cases ha : wf.steps.any (fun s => s.id == a) = true
    · rw [if_pos ha] at h
      rcases List.mem_cons.mp hid with rfl | hm
      · exact ha
      · exact ih h id hm
    · rw [if_neg ha] at h
      cases h

theorem validateSteps_ok_resolve (config : WorkflowManagerConfig) (wf : DynamicWorkflow) :
    ∀ L, validateSteps config wf L = Except.ok () →
      ∀ s ∈ L, ∀ id ∈ s.nextSteps, (stepOf wf id).isSome = true := by
  intro L
  induction L with
  | nil =>
    intro _ s hs
    cases hs
  | cons step rest ih =>
    intro h s hs id hid
    unfold validateSteps at h
    by_cases h1 : step.id = ""
    · rw [if_pos h1] at h
      cases h
    · rw [if_neg h1] at h
      by_cases h2 : step.description = ""
      · rw [if_pos h2] at h
        cases h
      · rw [if_neg h2] at h
        by_cases h3 : (isTruthyStr step.tool &&
            !(config.tools.any (fun t => t.name == step.tool.getD ""))) = true
        · rw [if_pos h3] at h
          cases h
        · rw [if_neg h3] at h
          cases hcn : checkNextStepsExist wf step step.nextSteps with
          | error e =>
            rw [hcn] at h
            cases h
          | ok u =>
            cases u
            rw [hcn] at h
            dsimp only at h
            rcases List.mem_cons.mp hs with rfl | hm
            · exact stepOf_isSome_of_any (checkNextStepsExist_ok wf s s.nextSteps hcn id hid)
            · exact ih h s hm id hid

theorem validate_ok_parts (config : WorkflowManagerConfig) (wf : DynamicWorkflow)
    (hv : validateWorkflow config wf = Except.ok ()) :
    wf.steps ≠ [] ∧ validateSteps config wf wf.steps = Except.ok () := by
  unfold validateWorkflow at hv
  by_cases h1 : wf.task = ""
  · rw [if_pos h1] at hv
    cases hv
  · rw [if_neg h1] at hv
    by_cases h2 : wf.steps = []
    · rw [if_pos h2] at hv
      cases hv
    · rw [if_neg h2] at hv
      refine ⟨h2, ?_⟩
      cases hvs : validateSteps config wf wf.steps with
      | error e =>
        rw [hvs] at hv
        cases hv
      | ok u =>
        cases u
        rfl

theorem selectNexts_of_condition_none (env : ExecEnv) (step : WorkflowStep)
    (v : StepValue) (h : step.condition = none) :
    selectNexts env step v = Except.ok step.nextSteps := by
  unfold selectNexts
  rw [h]

theorem execBody_total (wf : DynamicWorkflow) (tools : List AvailableTool)
    (sp : String → List String → String) (lc : LlmQuery → String)
    (res : WorkflowResult) (step : WorkflowStep) :
    ∃ v, execBody wf
        { toolExecutor := fun t p => Except.ok (callToolIfAvailable tools t p)
          spawnChildAgent := fun a b => Except.ok (sp a b)
          llmComplete := fun q => Except.ok (lc q) } res step = Except.ok v := by
  unfold execBody
  by_cases ht : isTruthyStr step.tool = true
  · rw [if_pos ht]
    exact ⟨_, rfl⟩
  · rw [if_neg ht]
    cases hca : step.childAgent with
    | some ca => exact ⟨_, rfl⟩
    | none => exact ⟨_, rfl⟩

/-- On a condition-free workflow whose referenced successor ids all
resolve and whose collaborators never throw, the execution walk always
succeeds — whatever tools its steps name; missing tools do not fail it. -/
theorem execRun_total_ok (wf : DynamicWorkflow) (env : ExecEnv)
    (hbody : ∀ res step, ∃ v, execBody wf env res step = Except.ok v)
    (hres : ∀ s ∈ wf.steps, ∀ id ∈ s.nextSteps, (stepOf wf id).isSome = true)
    (hnc : ∀ s ∈ wf.steps, s.condition = none) :
    ∀ (res : WorkflowResult) (fs : List (Option String × List String)),
      (∀ f ∈ fs, ∀ id ∈ f.2, (stepOf wf id).isSome = true) →
      ∃ r, execRun wf env res fs = Except.ok r := by
  intro res fs
  induction res, fs using execRun.induct wf env with
  | case1 res =>
    intro _
    exact ⟨res, execRun_nil wf env res⟩
  | case2 res o fs ih =>
    intro hfr
    obtain ⟨r, hr⟩ := ih (fun f hf => hfr f (List.mem_cons_of_mem _ hf))
    exact ⟨r, by rw [execRun_pop]; exact hr⟩
  | case3 res o n rest fs hnone =>
    intro hfr
    exfalso
    have h := hfr (o, n :: rest) (List.mem_cons_self _ _) n (List.mem_cons_self _ _)
    rw [hnone] at h
    cases h
  | case4 res o n rest fs step hstep hdone ih =>
    intro hfr
    have hfr2 : ∀ f ∈ ((o, rest) :: fs), ∀ id ∈ f.2, (stepOf wf id).isSome = true := by
      intro f hf id hid
      rcases List.mem_cons.mp hf with rfl | hm
      · exact hfr (o, n :: rest) (List.mem_cons_self _ _) id (List.mem_cons_of_mem _ hid)
      · exact hfr f (List.mem_cons_of_mem _ hm) id hid
    obtain ⟨r, hr⟩ := ih hfr2
    exact ⟨r, by rw [execRun_cons_done wf env res o n rest fs step hstep hdone]; exact hr⟩
  | case5 res o n rest fs step hstep hdone e hbody' =>
    intro _
    exfalso
    obtain ⟨v, hv⟩ := hbody res step
    rw [hv] at hbody'
    cases hbody'
  | case6 res o n rest fs step hstep hdone v hbody' e hsel =>
    intro _
    exfalso
    have hmem : step ∈ wf.steps := by
      unfold stepOf at hstep
      exact List.mem_of_find?_eq_some hstep
    rw [selectNexts_of_condition_none env step v (hnc step hmem)] at hsel
    cases hsel
  | case7 res o n rest fs step hstep hdone v hbody' nexts hsel ih =>
    intro hfr
    have hmem : step ∈ wf.steps := by
      unfold stepOf at hstep
      exact List.mem_of_find?_eq_some hstep
    have hnexts : nexts = step.nextSteps := by
      rw [selectNexts_of_condition_none env step v (hnc step hmem)] at hsel
      cases hsel
      rfl
    have hfr2 : ∀ f ∈ ((some n, nexts) :: (o, rest) :: fs), ∀ id ∈ f.2,
        (stepOf wf id).isSome = true := by
      intro f hf id hid
      rcases List.mem_cons.mp hf with rfl | hm
      · exact hres step hmem id (hnexts ▸ hid)
      · rcases List.mem_cons.mp hm with rfl | hm2
        · exact hfr (o, n :: rest) (List.mem_cons_self _ _) id (List.mem_cons_of_mem _ hid)
        · exact hfr f (List.mem_cons_of_mem _ hm2) id hid
    obtain ⟨r, hr⟩ := ih hfr2
    refine ⟨r, ?_⟩
    rw [execRun_cons_exec wf env res o n rest fs step hstep hdone, hbody']
    dsimp only
    rw [hsel]
    dsimp only
    exact hr

/-- C3: tool-not-found is recoverable, at the claim's scope.

First conjunct (any workflow, any environment, any point of any run): when
the walk reaches a not-yet-completed tool-call step whose tool invocation
reports not-found (`Except.ok none`, as `callToolIfAvailable` does for an
absent tool), no error is raised: the step is recorded as a failed step
result — its id is appended to `completedSteps` and a null entry stored in
`stepResults` — and the walk continues by dispatching the step's active
successors.

Second conjunct (any validated condition-free workflow): with the tool
invoker backed by `callToolIfAvailable` over an arbitrary registry — so
any subset of the named tools may be absent — and collaborators that never
throw, the run still reaches status `completed`. -/
theorem C3_missing_tool_recoverable :
    (∀ (wf : DynamicWorkflow) (env : ExecEnv) (res : WorkflowResult)
        (o : Option String) (n : String) (rest : List String)
        (fs : List (Option String × List String)) (step : WorkflowStep)
        (nexts : List String),
        stepOf wf n = some step →
        n ∉ res.completedSteps →
        isTruthyStr step.tool = true →
        env.toolExecutor (step.tool.getD "") (step.toolParameters.getD []) =
          Except.ok none →
        selectNexts env step none = Except.ok nexts →
        execRun wf env res ((o, n :: rest) :: fs) =
            execRun wf env (recordStep res n none) ((some n, nexts) :: (o, rest) :: fs) ∧
          n ∈ (recordStep res n none).completedSteps ∧
          (recordStep res n none).stepResults.lookup n = some none) ∧
    (∀ (config : WorkflowManagerConfig) (wf : DynamicWorkflow)
        (tools : List AvailableTool) (sp : String → List String → String)
        (lc : LlmQuery → String),
        validateWorkflow config wf = Except.ok () →
        (∀ s ∈ wf.steps, s.condition = none) →
        (executeWorkflow config wf
          { toolExecutor := fun t p => Except.ok (callToolIfAvailable tools t p)
            spawnChildAgent := fun a b => Except.ok (sp a b)
            llmComplete := fun q => Except.ok (lc q) }).status =
          WorkflowStatus.completed) := by
  constructor
  · intro wf env res o n rest fs step nexts hstep hdone htool htoolexec hsel
    have hbody : execBody wf env res step = Except.ok none := by
      unfold execBody
      rw [if_pos htool, htoolexec]
    refine ⟨?_, ?_, ?_⟩
    · rw [execRun_cons_exec wf env res o n rest fs step hstep hdone, hbody]
      dsimp only
      rw [hsel]
    · simp [recordStep]
    · exact lookup_setKey_self res.stepResults n none
  · intro config wf tools sp lc hval hnc
    obtain ⟨hne, hvsteps⟩ := validate_ok_parts config wf hval
    have hres := validateSteps_ok_resolve config wf wf.steps hvsteps
    cases hsteps : wf.steps with
    | nil => exact absurd hsteps hne
    | cons s0 l =>
      unfold executeWorkflow
      rw [hsteps]
      dsimp only
      have hfr : ∀ f ∈ [((none : Option String), [s0.id])], ∀ id ∈ f.2,
          (stepOf wf id).isSome = true := by
        intro f hf id hid
        rcases List.mem_singleton.mp hf with rfl
        have hid2 : id ∈ [s0.id] := hid
        rcases List.mem_singleton.mp hid2 with rfl
        have hs0 : stepOf wf s0.id = some s0 := by
          unfold stepOf
          rw [hsteps]
          exact List.find?_cons_of_pos l (by simp)
        rw [hs0]
        rfl
      obtain ⟨r, hr⟩ := execRun_total_ok wf
        { toolExecutor := fun t p => Except.ok (callToolIfAvailable tools t p)
          spawnChildAgent := fun a b => Except.ok (sp a b)
          llmComplete := fun q => Except.ok (lc q) }
        (fun res step => execBody_total wf tools sp lc res step)
        (fun s hs => hres s (hsteps ▸ hs)) (fun s hs => hnc s (hsteps ▸ hs))
        initialResult [((none : Option String), [s0.id])] hfr
      rw [hr]

/-- C3 witness: both conjuncts at concrete inputs — the entry step of
`wToolMiss` with the always-not-found invoker of `envOk` is recorded as
null and its successor dispatched; and the full run of `wToolMiss`
(validated against the catalogue `cfgMissing`, executed against an empty
registry) completes. -/
theorem C3_witness :
    (execRun wToolMiss envOk initialResult [((none : Option String), ["a"])] =
          execRun wToolMiss envOk (recordStep initialResult "a" none)
            [(some "a", ["b"]), ((none : Option String), [])] ∧
        "a" ∈ (recordStep initialResult "a" none).completedSteps ∧
        (recordStep initialResult "a" none).stepResults.lookup "a" = some none) ∧
      (executeWorkflow cfgMissing wToolMiss
        { toolExecutor := fun t p => Except.ok (callToolIfAvailable [] t p)
          spawnChildAgent := fun a b => Except.ok ((fun _ _ => "x") a b)
          llmComplete := fun q => Except.ok ((fun _ => "y") q) }).status =
        WorkflowStatus.completed :=
  ⟨C3_missing_tool_recoverable.1 wToolMiss envOk initialResult none "a" [] []
      { mkStep "a" "da" ["b"] with tool := some "missing" } ["b"]
      (by simp [stepOf, wToolMiss, mkStep, List.find?]) (by decide) (by decide) rfl rfl,
    C3_missing_tool_recoverable.2 cfgMissing wToolMiss [] (fun _ _ => "x") (fun _ => "y")
      (by simp [validateWorkflow, wToolMiss, mkStep, cfgMissing, validateSteps,
        checkNextStepsExist, isTruthyStr, checkForCircularReferences, stepOf, List.find?,
        cycleRun, insertSet, findReachableSteps, reachLoop, List.erase])
      (by decide)⟩

/-! ### C1: completed runs versus reachable steps -/

theorem reachLoop_nil (wf : DynamicWorkflow) (r : List String) :
    reachLoop wf r [] = r := by
  rw [reachLoop]

theorem reachLoop_skip (wf : DynamicWorkflow) (r : List String) (n : String)
    (rest : List String) (hvis : n ∈ r) :
    reachLoop wf r (n :: rest) = reachLoop wf r rest := by
  rw [reachLoop, dif_pos hvis]

theorem reachLoop_none (wf : DynamicWorkflow) (r : List String) (n : String)
    (rest : List String) (hvis : n ∉ r) (h : stepOf wf n = none) :
    reachLoop wf r (n :: rest) = reachLoop wf (r ++ [n]) rest := by
  rw [reachLoop, dif_neg hvis]
  split
  · rfl
  · rename_i step heq
    rw [h] at heq
    cases heq

theorem reachLoop_some (wf : DynamicWorkflow) (r : List String) (n : String)
    (rest : List String) (step : WorkflowStep) (hvis : n ∉ r)
    (h : stepOf wf n = some step) :
    reachLoop wf r (n :: rest) = reachLoop wf (r ++ [n]) (step.nextSteps ++ rest) := by
  rw [reachLoop, dif_neg hvis]
  split
  · rename_i heq
    rw [h] at heq
    cases heq
  · rename_i step' heq
    rw [h] at heq
    cases heq
    rfl

theorem reachLoop_nodup (wf : DynamicWorkflow) :
    ∀ (r pend : List String), r.Nodup → (reachLoop wf r pend).Nodup := by
  intro r pend
  induction r, pend using reachLoop.induct wf with
  | case1 r =>
    intro h
    rwa [reachLoop_nil]
  | case2 r n rest hvis ih =>
    intro h
    rw [reachLoop_skip wf r n rest hvis]
    exact ih h
  | case3 r n rest hvis hnone ih =>
    intro h
    rw [reachLoop_none wf r n rest hvis hnone]
    refine ih (List.Nodup.append h (List.nodup_singleton n) ?_)
    intro a ha hb
    exact hvis ((List.mem_singleton.mp hb) ▸ ha)
  | case4 r n rest hvis step hstep ih =>
    intro h
    rw [reachLoop_some wf r n rest step hvis hstep]
    refine ih (List.Nodup.append h (List.nodup_singleton n) ?_)
    intro a ha hb
    exact hvis ((List.mem_singleton.mp hb) ▸ ha)

/-- On a condition-free workflow, a successful execution walk visits and
records exactly the ids that the reachability walk collects, in the same
depth-first order. -/
theorem execRun_completed_eq_reach (wf : DynamicWorkflow) (env : ExecEnv)
    (hnc : ∀ s ∈ wf.steps, s.condition = none) :
    ∀ (res : WorkflowResult) (fs : List (Option String × List String))
      (r : WorkflowResult),
      execRun wf env res fs = Except.ok r →
      r.completedSteps = reachLoop wf res.completedSteps (fs.map Prod.snd).flatten := by
  intro res fs
  induction res, fs using execRun.induct wf env with
  | case1 res =>
    intro r hok
    rw [execRun_nil] at hok
    cases hok
    simp [reachLoop_nil]
  | case2 res o fs ih =>
    intro r hok
    rw [execRun_pop] at hok
    simpa using ih r hok
  | case3 res o n rest fs hnone =>
    intro r hok
    rw [execRun_cons_none wf env res o n rest fs hnone] at hok
    cases hok
  | case4 res o n rest fs step hstep hdone ih =>
    intro r hok
    rw [execRun_cons_done wf env res o n rest fs step hstep hdone] at hok
    have := ih r hok
    rw [this]
    simp only [List.map_cons, List.flatten_cons, List.cons_append]
    rw [reachLoop_skip wf res.completedSteps n (rest ++ (fs.map Prod.snd).flatten) hdone]
  | case5 res o n rest fs step hstep hdone e hbody =>
    intro r hok
    rw [execRun_cons_exec wf env res o n rest fs step hstep hdone, hbody] at hok
    cases hok
  | case6 res o n rest fs step hstep hdone v hbody e hsel =>
    intro r hok
    rw [execRun_cons_exec wf env res o n rest fs step hstep hdone, hbody] at hok
    dsimp only at hok
    rw [hsel] at hok
    cases hok
  | case7 res o n rest fs step hstep hdone v hbody nexts hsel ih =>
    intro r hok
    rw [execRun_cons_exec wf env res o n rest fs step hstep hdone, hbody] at hok
    dsimp only at hok
    rw [hsel] at hok
    dsimp only at hok
    have hmem : step ∈ wf.steps := by
      unfold stepOf at hstep
      exact List.mem_of_find?_eq_some hstep
    have hcond : step.condition = none := hnc step hmem
    have hnexts : nexts = step.nextSteps := by
      unfold selectNexts at hsel
      rw [hcond] at hsel
      cases hsel
      rfl
    have := ih r hok
    rw [this]
    subst hnexts
    simp only [List.map_cons, List.flatten_cons, List.cons_append, recordStep]
    rw [reachLoop_some wf res.completedSteps n (rest ++ (fs.map Prod.snd).flatten) step
      hdone hstep]

/-- C1 counterexample: `wCondSkip` passes validation and its run completes,
but the branch of step a replaces `nextSteps` with an empty successor set,
so the reachable terminal step b is never executed: `completedSteps` omits
a reachable step. -/
theorem C1_counterexample :
    validateWorkflow cfgEmpty wCondSkip = Except.ok () ∧
      (executeWorkflow cfgEmpty wCondSkip envOk).status = WorkflowStatus.completed ∧
      "b" ∈ findReachableSteps wCondSkip ∧
      "b" ∉ (executeWorkflow cfgEmpty wCondSkip envOk).completedSteps := by
  have hct : containsTrue "llmresp" = false := by decide
  refine ⟨?_, ?_, ?_, ?_⟩
  · simp [validateWorkflow, wCondSkip, mkStep, cfgEmpty, validateSteps, checkNextStepsExist,
      isTruthyStr, checkForCircularReferences, stepOf, List.find?, cycleRun, insertSet,
      findReachableSteps, reachLoop, List.erase]
  · simp [executeWorkflow, wCondSkip, mkStep, envOk, execRun, stepOf, List.find?, execBody,
      isTruthyStr, selectNexts, recordStep, setKey, initialResult, hct]
  · simp [findReachableSteps, wCondSkip, mkStep, reachLoop, stepOf, List.find?]
  · simp [executeWorkflow, wCondSkip, mkStep, envOk, execRun, stepOf, List.find?, execBody,
      isTruthyStr, selectNexts, recordStep, setKey, initialResult, hct]

/-- C1 amended: restricted to workflows in which no step carries a
`condition`, a completed run records exactly the reachable steps: its
`completedSteps` equals `findReachableSteps` as lists — every reachable
step exactly once, no duplicates, no omissions. -/
theorem C1_completed_covers_reachable (config : WorkflowManagerConfig)
    (wf : DynamicWorkflow) (env : ExecEnv)
    (hval : validateWorkflow config wf = Except.ok ())
    (hnc : ∀ s ∈ wf.steps, s.condition = none)
    (hst : (executeWorkflow config wf env).status = WorkflowStatus.completed) :
    (executeWorkflow config wf env).completedSteps = findReachableSteps wf ∧
      (executeWorkflow config wf env).completedSteps.Nodup := by
  cases hsteps : wf.steps with
  | nil =>
    exfalso
    unfold executeWorkflow at hst
    rw [hsteps] at hst
    dsimp only at hst
    cases hst
  | cons s0 l =>
    unfold executeWorkflow at hst ⊢
    rw [hsteps] at hst ⊢
    dsimp only at hst ⊢
    cases hrun : execRun wf env initialResult [(none, [s0.id])] with
    | ok r =>
      dsimp only
      have hsim := execRun_completed_eq_reach wf env hnc initialResult
        [(none, [s0.id])] r hrun
      have hreach : findReachableSteps wf = reachLoop wf [] [s0.id] := by
        unfold findReachableSteps
        rw [hsteps]
      have hinit : initialResult.completedSteps = [] := rfl
      rw [hinit] at hsim
      constructor
      · rw [hsim, hreach]
        rfl
      · rw [hsim]
        have : ([s0.id] : List String) = ([(none, [s0.id])].map
            (Prod.snd (α := Option String))).flatten := by simp
        exact reachLoop_nodup wf [] _ List.nodup_nil
    | error p =>
      exfalso
      obtain ⟨m, r⟩ := p
      rw [hrun] at hst
      dsimp only at hst
      cases hst

/-- C1 witness: the amended statement on the linear workflow a → b. -/
theorem C1_witness :
    (executeWorkflow cfgEmpty wLinear envOk).completedSteps =
        findReachableSteps wLinear ∧
      (executeWorkflow cfgEmpty wLinear envOk).completedSteps.Nodup :=
  C1_completed_covers_reachable cfgEmpty wLinear envOk
    (by simp [validateWorkflow, wLinear, mkStep, cfgEmpty, validateSteps,
      checkNextStepsExist, isTruthyStr, checkForCircularReferences, stepOf, List.find?,
      cycleRun, insertSet, findReachableSteps, reachLoop, List.erase])
    (by decide)
    (by simp [executeWorkflow, wLinear, mkStep, envOk, execRun, stepOf, List.find?,
      execBody, isTruthyStr, selectNexts, recordStep, setKey, initialResult])

/-! ### C5: validation reports only the first violated invariant -/

/-- C5 counterexample: `wBad` violates three invariants at once (unknown
tool, no terminal step, a cycle), yet `validateWorkflow` reports only the
unknown-tool violation — not the set of all violated invariants. -/
theorem C5_counterexample :
    validateWorkflow cfgOther wBad = Except.error "Step a uses an unknown tool: nope" ∧
      (¬ wBad.steps.any (fun s => s.nextSteps.isEmpty) = true) ∧
      checkForCircularReferences wBad = Except.error (circularMsg "a") := by
  refine ⟨?_, by decide, ?_⟩
  · simp [validateWorkflow, wBad, mkStep, cfgOther, validateSteps, isTruthyStr]
  · simp [checkForCircularReferences, wBad, mkStep, stepOf, List.find?, cycleRun,
      insertSet, circularMsg, List.erase]

/-- C5 amended: validation stops at the first violated invariant in source
order and reports it as a single error message; later violations (here the
missing terminal step) are not reported. -/
theorem C5_first_violation_only (config : WorkflowManagerConfig)
    (h : config.tools.any (fun t => t.name == "nope") = false) :
    validateWorkflow config wBad = Except.error "Step a uses an unknown tool: nope" ∧
      (¬ wBad.steps.any (fun s => s.nextSteps.isEmpty) = true) := by
  refine ⟨?_, by decide⟩
  simp [validateWorkflow, wBad, mkStep, validateSteps, isTruthyStr, h]

/-- C5 witness: the amended statement at the empty catalogue. -/
theorem C5_witness :
    validateWorkflow cfgEmpty wBad = Except.error "Step a uses an unknown tool: nope" ∧
      (¬ wBad.steps.any (fun s => s.nextSteps.isEmpty) = true) :=
  C5_first_violation_only cfgEmpty (by decide)

/-! ### C6: no step-id uniqueness check exists -/

/-- C6 counterexample: `wDup` contains two distinct steps with the same id
a, yet validation succeeds — it does not fail with a uniqueness
violation. -/
theorem C6_counterexample :
    validateWorkflow cfgOther wDup = Except.ok () ∧
      ¬ (wDup.steps.map (fun s => s.id)).Nodup ∧
      wDup.steps.length = 2 := by
  refine ⟨?_, by decide, by decide⟩
  simp [validateWorkflow, wDup, mkStep, cfgOther, validateSteps, checkNextStepsExist,
    isTruthyStr, checkForCircularReferences, stepOf, List.find?, cycleRun, insertSet,
    findReachableSteps, reachLoop, List.erase]

/-- C6 amended: `validateWorkflow` performs no step-id uniqueness check;
a workflow with two distinct steps sharing an id passes validation and
proceeds to execution (the run below completes). -/
theorem C6_duplicate_ids_accepted :
    (¬ (wDup.steps.map (fun s => s.id)).Nodup) ∧
      validateWorkflow cfgEmpty wDup = Except.ok () ∧
      (executeWorkflow cfgEmpty wDup envOk).status = WorkflowStatus.completed := by
  refine ⟨by decide, ?_, ?_⟩
  · simp [validateWorkflow, wDup, mkStep, cfgEmpty, validateSteps, checkNextStepsExist,
      isTruthyStr, checkForCircularReferences, stepOf, List.find?, cycleRun, insertSet,
      findReachableSteps, reachLoop, List.erase]
  · simp [executeWorkflow, wDup, mkStep, envOk, execRun, stepOf, List.find?, execBody,
      isTruthyStr, selectNexts, recordStep, setKey, initialResult]

/-! ### C7: branch targets are invisible to the validator -/

/-- C7 counterexample: the branch of step a references the undefined id
zz, yet validation succeeds — no referential-integrity violation is
raised for branch targets. -/
theorem C7_counterexample :
    validateWorkflow cfgOther wBr = Except.ok () ∧
      "zz" ∉ wBr.steps.map (fun s => s.id) ∧
      (∃ s ∈ wBr.steps, ∃ c, s.condition = some c ∧ "zz" ∈ c.condThen) := by
  refine ⟨?_, by decide, ?_⟩
  · simp [validateWorkflow, wBr, mkStep, cfgOther, validateSteps, checkNextStepsExist,
      isTruthyStr, checkForCircularReferences, stepOf, List.find?, cycleRun, insertSet,
      findReachableSteps, reachLoop, List.erase]
  · exact ⟨wBr.steps.head (by simp [wBr]), by simp [wBr], ⟨"p", ["zz"], ["zz"]⟩, by
      simp [wBr, mkStep], by simp⟩

/-- C7 amended: the validator's successor relation covers only
`nextSteps`.  Branch targets are not checked for existence (`wBr` passes
although zz is undefined and unreachable), and they take part in neither
the reachability walk nor the cycle check (`wBrCyc`, whose only cycle runs
through a branch target, passes both). -/
theorem C7_branch_targets_ignored :
    validateWorkflow cfgEmpty wBr = Except.ok () ∧
      "zz" ∉ findReachableSteps wBr ∧
      validateWorkflow cfgEmpty wBrCyc = Except.ok () ∧
      checkForCircularReferences wBrCyc = Except.ok () ∧
      (∃ s ∈ wBrCyc.steps, ∃ c, s.condition = some c ∧ s.id ∈ c.condThen) := by
  refine ⟨?_, ?_, ?_, ?_, ?_⟩
  · simp [validateWorkflow, wBr, mkStep, cfgEmpty, validateSteps, checkNextStepsExist,
      isTruthyStr, checkForCircularReferences, stepOf, List.find?, cycleRun, insertSet,
      findReachableSteps, reachLoop, List.erase]
  · simp [findReachableSteps, wBr, mkStep, reachLoop, stepOf, List.find?]
  · simp [validateWorkflow, wBrCyc, mkStep, cfgEmpty, validateSteps, checkNextStepsExist,
      isTruthyStr, checkForCircularReferences, stepOf, List.find?, cycleRun, insertSet,
      findReachableSteps, reachLoop, List.erase]
  · simp [checkForCircularReferences, wBrCyc, mkStep, stepOf, List.find?, cycleRun,
      insertSet, List.erase]
  · exact ⟨wBrCyc.steps.head (by simp [wBrCyc]), by simp [wBrCyc], ⟨"p", ["a"], ["a"]⟩, by
      simp [wBrCyc, mkStep], by simp [wBrCyc, mkStep]⟩

/-! ### C9: the configured timeout is never consulted -/

/-- C9 counterexample: with the configured timeout set to 0 milliseconds —
a deadline that has already expired when the run starts — the engine still
dispatches both steps and returns `completed`, not `failed` with a timeout
reason. -/
theorem C9_counterexample :
    (mkManagerConfig { tools := [], timeout := some 0 }).timeout = some 0 ∧
      executeWorkflow (mkManagerConfig { tools := [], timeout := some 0 }) wLinear envOk =
        { status := WorkflowStatus.completed, error := none,
          completedSteps := ["a", "b"],
          stepResults := [("a", some "llmresp"), ("b", some "llmresp")] } := by
  refine ⟨rfl, ?_⟩
  simp [executeWorkflow, wLinear, mkStep, envOk, execRun, stepOf, List.find?, execBody,
    isTruthyStr, selectNexts, recordStep, setKey, initialResult]

/-- C9 amended: the constructor stores a timeout (defaulting to 300000
milliseconds), but `executeWorkflow` never reads it — the run result is
the same function of the workflow and the collaborators for every timeout
value, and no timeout failure is ever produced. -/
theorem C9_timeout_never_enforced (config : WorkflowManagerConfig)
    (t₁ t₂ : Option Nat) (wf : DynamicWorkflow) (env : ExecEnv) :
    executeWorkflow { config with timeout := t₁ } wf env =
      executeWorkflow { config with timeout := t₂ } wf env ∧
    (mkManagerConfig config).timeout = some (config.timeout.getD 300000) :=
  ⟨rfl, rfl⟩

/-! ### C8: cycle-detection infrastructure -/

theorem mem_insertSet (l : List String) (a x : String) :
    x ∈ insertSet l a ↔ (x = a ∨ x ∈ l) := by
  unfold insertSet
  split
  · rename_i h
    constructor
    · exact fun hx => Or.inr hx
    · rintro (rfl | hx)
      · exact h
      · exact hx
  · simp [or_comm]

theorem insertSet_of_not_mem {l : List String} {a : String} (h : a ∉ l) :
    insertSet l a = l ++ [a] := by
  unfold insertSet
  rw [if_neg h]

theorem erase_append_singleton {l : List String} {a : String} (h : a ∉ l) :
    (l ++ [a]).erase a = l := by
  rw [List.erase_append_right _ h, List.erase_cons_head, List.append_nil]

theorem cycleRun_nil (wf : DynamicWorkflow) (st : DfsState) :
    cycleRun wf st [] = Except.ok st := by
  rw [cycleRun]

theorem cycleRun_pop (wf : DynamicWorkflow) (st : DfsState) (o : String)
    (fs : List (String × List String)) :
    cycleRun wf st ((o, []) :: fs) =
      cycleRun wf { st with recStack := st.recStack.erase o } fs := by
  rw [cycleRun]

theorem cycleRun_gray (wf : DynamicWorkflow) (st : DfsState) (o n : String)
    (rest : List String) (fs : List (String × List String))
    (hvis : n ∈ st.visited) (hrec : n ∈ st.recStack) :
    cycleRun wf st ((o, n :: rest) :: fs) = Except.error (circularMsg n) := by
  rw [cycleRun, dif_pos hvis, if_pos hrec]

theorem cycleRun_skip (wf : DynamicWorkflow) (st : DfsState) (o n : String)
    (rest : List String) (fs : List (String × List String))
    (hvis : n ∈ st.visited) (hrec : n ∉ st.recStack) :
    cycleRun wf st ((o, n :: rest) :: fs) = cycleRun wf st ((o, rest) :: fs) := by
  rw [cycleRun, dif_pos hvis, if_neg hrec]

theorem cycleRun_none (wf : DynamicWorkflow) (st : DfsState) (o n : String)
    (rest : List String) (fs : List (String × List String))
    (hvis : n ∉ st.visited) (h : stepOf wf n = none) :
    cycleRun wf st ((o, n :: rest) :: fs) =
      cycleRun wf
        { visited := insertSet st.visited n
          recStack := (insertSet st.recStack n).erase n } ((o, rest) :: fs) := by
  rw [cycleRun, dif_neg hvis]
  split
  · rfl
  · rename_i step heq
    rw [h] at heq
    cases heq

theorem cycleRun_push (wf : DynamicWorkflow) (st : DfsState) (o n : String)
    (rest : List String) (fs : List (String × List String)) (step : WorkflowStep)
    (hvis : n ∉ st.visited) (h : stepOf wf n = some step) :
    cycleRun wf st ((o, n :: rest) :: fs) =
      cycleRun wf
        { visited := insertSet st.visited n
          recStack := insertSet st.recStack n }
        ((n, step.nextSteps) :: (o, rest) :: fs) := by
  rw [cycleRun, dif_neg hvis]
  split
  · rename_i heq
    rw [h] at heq
    cases heq
  · rename_i step' heq
    rw [h] at heq
    cases heq
    rfl

theorem cycleRunG_nil (wf : DynamicWorkflow) (st : DfsState) (F : List String) :
    cycleRunG wf st [] F = Except.ok (st, F) := by
  rw [cycleRunG]

theorem cycleRunG_pop (wf : DynamicWorkflow) (st : DfsState) (o : String)
    (fs : List (String × List String)) (F : List String) :
    cycleRunG wf st ((o, []) :: fs) F =
      cycleRunG wf { st with recStack := st.recStack.erase o } fs (F ++ [o]) := by
  rw [cycleRunG]

theorem cycleRunG_gray (wf : DynamicWorkflow) (st : DfsState) (o n : String)
    (rest : List String) (fs : List (String × List String)) (F : List String)
    (hvis : n ∈ st.visited) (hrec : n ∈ st.recStack) :
    cycleRunG wf st ((o, n :: rest) :: fs) F = Except.error (circularMsg n) := by
  rw [cycleRunG, dif_pos hvis, if_pos hrec]

theorem cycleRunG_skip (wf : DynamicWorkflow) (st : DfsState) (o n : String)
    (rest : List String) (fs : List (String × List String)) (F : List String)
    (hvis : n ∈ st.visited) (hrec : n ∉ st.recStack) :
    cycleRunG wf st ((o, n :: rest) :: fs) F = cycleRunG wf st ((o, rest) :: fs) F := by
  rw [cycleRunG, dif_pos hvis, if_neg hrec]

theorem cycleRunG_none (wf : DynamicWorkflow) (st : DfsState) (o n : String)
    (rest : List String) (fs : List (String × List String)) (F : List String)
    (hvis : n ∉ st.visited) (h : stepOf wf n = none) :
    cycleRunG wf st ((o, n :: rest) :: fs) F =
      cycleRunG wf
        { visited := insertSet st.visited n
          recStack := (insertSet st.recStack n).erase n } ((o, rest) :: fs) (F ++ [n]) := by
  rw [cycleRunG, dif_neg hvis]
  split
  · rfl
  · rename_i step heq
    rw [h] at heq
    cases heq

theorem cycleRunG_push (wf : DynamicWorkflow) (st : DfsState) (o n : String)
    (rest : List String) (fs : List (String × List String)) (F : List String)
    (step : WorkflowStep) (hvis : n ∉ st.visited) (h : stepOf wf n = some step) :
    cycleRunG wf st ((o, n :: rest) :: fs) F =
      cycleRunG wf
        { visited := insertSet st.visited n
          recStack := insertSet st.recStack n }
        ((n, step.nextSteps) :: (o, rest) :: fs) F := by
  rw [cycleRunG, dif_neg hvis]
  split
  · rename_i heq
    rw [h] at heq
    cases heq
  · rename_i step' heq
    rw [h] at heq
    cases heq
    rfl

/-- The instrumented walk computes the same outcome as the embedded one. -/
theorem cycleRun_eq_projection (wf : DynamicWorkflow) :
    ∀ (st : DfsState) (fs : List (String × List String)) (F : List String),
      cycleRun wf st fs = (cycleRunG wf st fs F).map Prod.fst := by
  intro st fs F
  induction st, fs, F using cycleRunG.induct wf with
  | case1 st F =>
    rw [cycleRun_nil, cycleRunG_nil]
    rfl
  | case2 st o fs F ih =>
    rw [cycleRun_pop, cycleRunG_pop, ih]
  | case3 st o n rest fs F hvis hrec =>
    rw [cycleRun_gray wf st o n rest fs hvis hrec,
      cycleRunG_gray wf st o n rest fs F hvis hrec]
    rfl
  | case4 st o n rest fs F hvis hrec ih =>
    rw [cycleRun_skip wf st o n rest fs hvis hrec,
      cycleRunG_skip wf st o n rest fs F hvis hrec, ih]
  | case5 st o n rest fs F hvis hnone ih =>
    rw [cycleRun_none wf st o n rest fs hvis hnone,
      cycleRunG_none wf st o n rest fs F hvis hnone, ih]
  | case6 st o n rest fs F hvis step hstep ih =>
    rw [cycleRun_push wf st o n rest fs step hvis hstep,
      cycleRunG_push wf st o n rest fs F step hvis hstep, ih]

/-- Every error the cycle walk can produce is a circular-reference
message. -/
theorem cycleRun_error_shape (wf : DynamicWorkflow) :
    ∀ (st : DfsState) (fs : List (String × List String)) (e : String),
      cycleRun wf st fs = Except.error e → ∃ n, e = circularMsg n := by
  intro st fs
  induction st, fs using cycleRun.induct wf with
  | case1 st =>
    intro e he
    rw [cycleRun_nil] at he
    cases he
  | case2 st o fs ih =>
    intro e he
    rw [cycleRun_pop] at he
    exact ih e he
  | case3 st o n rest fs hvis hrec =>
    intro e he
    rw [cycleRun_gray wf st o n rest fs hvis hrec] at he
    cases he
    exact ⟨n, rfl⟩
  | case4 st o n rest fs hvis hrec ih =>
    intro e he
    rw [cycleRun_skip wf st o n rest fs hvis hrec] at he
    exact ih e he
  | case5 st o n rest fs hvis hnone ih =>
    intro e he
    rw [cycleRun_none wf st o n rest fs hvis hnone] at he
    exact ih e he
  | case6 st o n rest fs hvis step hstep ih =>
    intro e he
    rw [cycleRun_push wf st o n rest fs step hvis hstep] at he
    exact ih e he

theorem topoList_nil (wf : DynamicWorkflow) : TopoList wf [] := by
  intro F₁ u F₂ h v hv
  exact absurd h.symm (by simp)

theorem topoList_append (wf : DynamicWorkflow) (F : List String) (o : String)
    (htopo : TopoList wf F) (hsucc : ∀ v, Edge wf o v → v ∈ F) :
    TopoList wf (F ++ [o]) := by
  intro F₁ u F₂ hsplit v hedge
  rcases List.eq_nil_or_concat F₂ with rfl | ⟨F₂', w, rfl⟩
  · have h2 : F = F₁ ∧ [o] = [u] := List.append_inj' hsplit rfl
    obtain ⟨rfl, h3⟩ := h2
    cases h3
    exact hsucc v hedge
  · rw [List.concat_eq_append, ← List.cons_append, ← List.append_assoc] at hsplit
    have h2 : F = F₁ ++ u :: F₂' ∧ [o] = [w] := List.append_inj' hsplit rfl
    exact htopo F₁ u F₂' h2.1 v hedge

theorem topoList_closed (wf : DynamicWorkflow) (F : List String)
    (h : TopoList wf F) : ∀ u ∈ F, ∀ v, Edge wf u v → v ∈ F := by
  intro u hu v he
  obtain ⟨F₁, F₂, rfl⟩ := List.append_of_mem hu
  exact List.mem_append_left _ (h F₁ u F₂ rfl v he)

theorem topo_rank (wf : DynamicWorkflow) (F : List String) (hnd : F.Nodup)
    (ht : TopoList wf F) {u v : String} (hu : u ∈ F) (he : Edge wf u v) :
    v ∈ F ∧ F.indexOf v < F.indexOf u := by
  obtain ⟨F₁, F₂, rfl⟩ := List.append_of_mem hu
  have hv1 : v ∈ F₁ := ht F₁ u F₂ rfl v he
  have hnotu : u ∉ F₁ := by
    intro hmem
    exact List.disjoint_of_nodup_append hnd hmem (by simp)
  constructor
  · exact List.mem_append_left _ hv1
  · rw [List.indexOf_append_of_mem hv1, List.indexOf_append_of_not_mem hnotu,
      List.indexOf_cons_self]
    have := List.indexOf_lt_length.mpr hv1
    omega

theorem topo_chain_rank (wf : DynamicWorkflow) (F : List String) (hnd : F.Nodup)
    (ht : TopoList wf F) :
    ∀ (l : List String) (u : String), u ∈ F → EdgeChain wf u l →
      ∀ w ∈ l, w ∈ F ∧ F.indexOf w < F.indexOf u := by
  intro l
  induction l with
  | nil =>
    intro u _ _ w hw
    cases hw
  | cons v l ih =>
    intro u hu hch w hw
    obtain ⟨he, hch'⟩ := hch
    obtain ⟨hvF, hvlt⟩ := topo_rank wf F hnd ht hu he
    rcases List.mem_cons.mp hw with rfl | hw'
    · exact ⟨hvF, hvlt⟩
    · obtain ⟨hwF, hwlt⟩ := ih v hvF hch' w hw'
      exact ⟨hwF, Nat.lt_trans hwlt hvlt⟩

theorem mem_of_getLast?_eq_some {l : List String} {v : String}
    (h : l.getLast? = some v) : v ∈ l := by
  induction l with
  | nil => cases h
  | cons a l ih =>
    cases l with
    | nil =>
      simp only [List.getLast?_singleton, Option.some.injEq] at h
      simp [h]
    | cons b t =>
      rw [List.getLast?_cons_cons] at h
      exact List.mem_cons_of_mem a (ih h)

theorem topo_no_cycle (wf : DynamicWorkflow) (F : List String) (hnd : F.Nodup)
    (ht : TopoList wf F) {v : String} (hv : v ∈ F) : ¬ CycleAt wf v := by
  rintro ⟨l, hch, hlast⟩
  have hvl : v ∈ l := mem_of_getLast?_eq_some hlast
  have := (topo_chain_rank wf F hnd ht l v hv hch v hvl).2
  omega

theorem topo_reach_mem (wf : DynamicWorkflow) (F : List String)
    (ht : TopoList wf F) :
    ∀ (l : List String) (u : String), u ∈ F → EdgeChain wf u l →
      ∀ w ∈ u :: l, w ∈ F := by
  intro l
  induction l with
  | nil =>
    intro u hu _ w hw
    rcases List.mem_cons.mp hw with rfl | h
    · exact hu
    · cases h
  | cons v l ih =>
    intro u hu hch w hw
    obtain ⟨he, hch'⟩ := hch
    have hvF : v ∈ F := topoList_closed wf F ht u hu v he
    rcases List.mem_cons.mp hw with rfl | hw'
    · exact hu
    · exact ih v hvF hch' w hw'

theorem framesConsumed_mono (wf : DynamicWorkflow) {F F' : List String}
    (hF : ∀ x ∈ F, x ∈ F') :
    ∀ (fs : List (String × List String)) (above above' : List String),
      (∀ x ∈ above, x ∈ F' ∨ x ∈ above') →
      FramesConsumed wf F above fs → FramesConsumed wf F' above' fs := by
  intro fs
  induction fs with
  | nil =>
    intro above above' _ _
    trivial
  | cons f fs ih =>
    obtain ⟨o, pending⟩ := f
    rintro above above' hab ⟨⟨consumed, hC, hc⟩, hrest⟩
    refine ⟨⟨consumed, hC, ?_⟩, ?_⟩
    · intro c hcmem
      rcases hc c hcmem with h | h
      · exact Or.inl (hF c h)
      · exact hab c h
    · refine ih (o :: above) (o :: above') ?_ hrest
      intro x hx
      rcases List.mem_cons.mp hx with rfl | hx'
      · exact Or.inr (List.mem_cons_self x above')
      · rcases hab x hx' with h | h
        · exact Or.inl h
        · exact Or.inr (List.mem_cons_of_mem o h)

/-- Main invariant argument: a cycle walk that returns `ok` has finished
every frame owner, and its ghost finished list is a duplicate-free reverse
topological order containing everything previously finished. -/
theorem cycleRunG_ok_spec (wf : DynamicWorkflow) :
    ∀ (st : DfsState) (fs : List (String × List String)) (F : List String),
      CycleInv wf st fs F →
      ∀ (st' : DfsState) (F' : List String),
        cycleRunG wf st fs F = Except.ok (st', F') →
        (∀ x ∈ F, x ∈ F') ∧ F'.Nodup ∧ TopoList wf F' ∧
          (∀ o ∈ fs.map Prod.fst, o ∈ F') := by
  intro st fs F
  induction st, fs, F using cycleRunG.induct wf with
  | case1 st F =>
    intro hinv st' F' hok
    rw [cycleRunG_nil] at hok
    cases hok
    exact ⟨fun x hx => hx, hinv.nodupF, hinv.topo, by simp⟩
  | case2 st o fs F ih =>
    intro hinv st' F' hok
    rw [cycleRunG_pop] at hok
    have horec : o ∈ st.recStack := (hinv.stack_eq o).mpr (by simp)
    have honotF : o ∉ F := fun h => hinv.disj o h horec
    have hOtail : o ∉ fs.map Prod.fst := by
      have h := hinv.nodupO
      simp only [List.map_cons] at h
      exact (List.nodup_cons.mp h).1
    have hmErase : ∀ x : String, x ∈ st.recStack.erase o ↔ (x ≠ o ∧ x ∈ st.recStack) :=
      fun x => hinv.nodupR.mem_erase_iff
    obtain ⟨⟨consumed, hC, hcc⟩, hrest⟩ := hinv.cons
    have hconsumed : ∀ v, Edge wf o v → v ∈ F := by
      intro v he
      unfold Edge at he
      rw [hC, List.append_nil] at he
      rcases hcc v he with h | h
      · exact h
      · cases h
    have hinv' : CycleInv wf { st with recStack := st.recStack.erase o } fs (F ++ [o]) := by
      refine ⟨?_, ?_, ?_, ?_, ?_, ?_, ?_, ?_⟩
      · intro x
        have hold := hinv.vis_eq x
        simp only [List.mem_append, List.mem_singleton, hmErase x]
        constructor
        · intro hx
          rcases hold.mp hx with hF | hR
          · exact Or.inl (Or.inl hF)
          · by_cases hxo : x = o
            · exact Or.inl (Or.inr hxo)
            · exact Or.inr ⟨hxo, hR⟩
        · rintro ((hF | rfl) | ⟨hne, hR⟩)
          · exact hold.mpr (Or.inl hF)
          · exact hold.mpr (Or.inr horec)
          · exact hold.mpr (Or.inr hR)
      · intro x hx
        rw [hmErase x]
        rcases List.mem_append.mp hx with hF | hxo
        · rintro ⟨_, hR⟩
          exact hinv.disj x hF hR
        · rintro ⟨hne, _⟩
          exact hne (List.mem_singleton.mp hxo)
      · refine List.Nodup.append hinv.nodupF (List.nodup_singleton o) ?_
        intro a ha hb
        exact honotF ((List.mem_singleton.mp hb) ▸ ha)
      · exact List.Nodup.erase o hinv.nodupR
      · intro x
        rw [hmErase x]
        constructor
        · rintro ⟨hne, hR⟩
          have := (hinv.stack_eq x).mp hR
          simp only [List.map_cons] at this
          rcases List.mem_cons.mp this with h | h
          · exact absurd h hne
          · exact h
        · intro hx
          have hne : x ≠ o := fun h => hOtail (h ▸ hx)
          refine ⟨hne, (hinv.stack_eq x).mpr ?_⟩
          simp only [List.map_cons]
          exact List.mem_cons_of_mem _ hx
      · have h := hinv.nodupO
        simp only [List.map_cons] at h
        exact (List.nodup_cons.mp h).2
      · exact topoList_append wf F o hinv.topo hconsumed
      · refine framesConsumed_mono wf
          (fun x hx => List.mem_append_left _ hx) fs [o] [] ?_ hrest
        intro x hx
        exact Or.inl (List.mem_append_right _ hx)
    obtain ⟨hsub, hnd, ht, hown⟩ := ih hinv' st' F' hok
    refine ⟨fun x hx => hsub x (List.mem_append_left _ hx), hnd, ht, ?_⟩
    intro o' ho'
    simp only [List.map_cons] at ho'
    rcases List.mem_cons.mp ho' with rfl | h
    · exact hsub o' (List.mem_append_right _ (List.mem_singleton_self o'))
    · exact hown o' h
  | case3 st o n rest fs F hvis hrec =>
    intro hinv st' F' hok
    rw [cycleRunG_gray wf st o n rest fs F hvis hrec] at hok
    cases hok
  | case4 st o n rest fs F hvis hrec ih =>
    intro hinv st' F' hok
    rw [cycleRunG_skip wf st o n rest fs F hvis hrec] at hok
    have hnF : n ∈ F := by
      rcases (hinv.vis_eq n).mp hvis with h | h
      · exact h
      · exact absurd h hrec
    obtain ⟨⟨consumed, hC, hcc⟩, hrest⟩ := hinv.cons
    have hinv' : CycleInv wf st ((o, rest) :: fs) F := by
      refine ⟨hinv.vis_eq, hinv.disj, hinv.nodupF, hinv.nodupR, ?_, ?_, hinv.topo, ?_⟩
      · intro x
        have h := hinv.stack_eq x
        simpa using h
      · have h := hinv.nodupO
        simpa using h
      · refine ⟨⟨consumed ++ [n], ?_, ?_⟩, hrest⟩
        · rw [hC]
          simp
        · intro c hc'
          rcases List.mem_append.mp hc' with h | h
          · exact hcc c h
          · exact Or.inl ((List.mem_singleton.mp h) ▸ hnF)
    obtain ⟨hsub, hnd, ht, hown⟩ := ih hinv' st' F' hok
    refine ⟨hsub, hnd, ht, ?_⟩
    intro o' ho'
    apply hown o'
    simpa using ho'
  | case5 st o n rest fs F hvis hnone ih =>
    intro hinv st' F' hok
    rw [cycleRunG_none wf st o n rest fs F hvis hnone] at hok
    have hnrec : n ∉ st.recStack := fun h => hvis ((hinv.vis_eq n).mpr (Or.inr h))
    have hnotF : n ∉ F := fun h => hvis ((hinv.vis_eq n).mpr (Or.inl h))
    have hstate : (insertSet st.recStack n).erase n = st.recStack := by
      rw [insertSet_of_not_mem hnrec, erase_append_singleton hnrec]
    have hvisIns : insertSet st.visited n = st.visited ++ [n] :=
      insertSet_of_not_mem hvis
    obtain ⟨⟨consumed, hC, hcc⟩, hrest⟩ := hinv.cons
    have hinv' : CycleInv wf
        { visited := insertSet st.visited n
          recStack := (insertSet st.recStack n).erase n } ((o, rest) :: fs) (F ++ [n]) := by
      rw [hstate, hvisIns]
      refine ⟨?_, ?_, ?_, hinv.nodupR, ?_, ?_, ?_, ?_⟩
      · intro x
        have hold := hinv.vis_eq x
        simp only [List.mem_append, List.mem_singleton]
        tauto
      · intro x hx
        rcases List.mem_append.mp hx with hF | hxn
        · exact hinv.disj x hF
        · exact (List.mem_singleton.mp hxn) ▸ hnrec
      · refine List.Nodup.append hinv.nodupF (List.nodup_singleton n) ?_
        intro a ha hb
        exact hnotF ((List.mem_singleton.mp hb) ▸ ha)
      · intro x
        have h := hinv.stack_eq x
        simpa using h
      · have h := hinv.nodupO
        simpa using h
      · refine topoList_append wf F n hinv.topo ?_
        intro v he
        unfold Edge nextsOf at he
        rw [hnone] at he
        cases he
      · refine ⟨⟨consumed ++ [n], ?_, ?_⟩, ?_⟩
        · rw [hC]
          simp
        · intro c hc'
          rcases List.mem_append.mp hc' with h | h
          · rcases hcc c h with h2 | h2
            · exact Or.inl (List.mem_append_left _ h2)
            · cases h2
          · exact Or.inl (List.mem_append_right _ h)
        · refine framesConsumed_mono wf
            (fun x hx => List.mem_append_left _ hx) fs [o] [o] ?_ hrest
          intro x hx
          exact Or.inr hx
    obtain ⟨hsub, hnd, ht, hown⟩ := ih hinv' st' F' hok
    refine ⟨fun x hx => hsub x (List.mem_append_left _ hx), hnd, ht, ?_⟩
    intro o' ho'
    apply hown o'
    simpa using ho'
  | case6 st o n rest fs F hvis step hstep ih =>
    intro hinv st' F' hok
    rw [cycleRunG_push wf st o n rest fs F step hvis hstep] at hok
    have hnrec : n ∉ st.recStack := fun h => hvis ((hinv.vis_eq n).mpr (Or.inr h))
    have hnotF : n ∉ F := fun h => hvis ((hinv.vis_eq n).mpr (Or.inl h))
    have hvisIns : insertSet st.visited n = st.visited ++ [n] :=
      insertSet_of_not_mem hvis
    have hrecIns : insertSet st.recStack n = st.recStack ++ [n] :=
      insertSet_of_not_mem hnrec
    have hnown : n ∉ (fs.map Prod.fst) ∧ n ≠ o := by
      constructor
      · intro h
        apply hnrec
        apply (hinv.stack_eq n).mpr
        simp only [List.map_cons]
        exact List.mem_cons_of_mem _ h
      · intro h
        apply hnrec
        apply (hinv.stack_eq n).mpr
        simp only [List.map_cons, h]
        exact List.mem_cons_self o _
    obtain ⟨⟨consumed, hC, hcc⟩, hrest⟩ := hinv.cons
    have hinv' : CycleInv wf
        { visited := insertSet st.visited n, recStack := insertSet st.recStack n }
        ((n, step.nextSteps) :: (o, rest) :: fs) F := by
      rw [hvisIns, hrecIns]
      refine ⟨?_, ?_, hinv.nodupF, ?_, ?_, ?_, hinv.topo, ?_⟩
      · intro x
        have hold := hinv.vis_eq x
        simp only [List.mem_append, List.mem_singleton]
        tauto
      · intro x hx hr
        rcases List.mem_append.mp hr with hR | hxn
        · exact hinv.disj x hx hR
        · exact hnotF ((List.mem_singleton.mp hxn) ▸ hx)
      · refine List.Nodup.append hinv.nodupR (List.nodup_singleton n) ?_
        intro a ha hb
        exact hnrec ((List.mem_singleton.mp hb) ▸ ha)
      · intro x
        have hold := hinv.stack_eq x
        simp only [List.map_cons] at hold ⊢
        simp only [List.mem_append, List.mem_singleton]
        constructor
        · rintro (hR | rfl)
          · exact List.mem_cons_of_mem _ (hold.mp hR)
          · exact List.mem_cons_self x _
        · intro hx
          rcases List.mem_cons.mp hx with rfl | hx'
          · exact Or.inr rfl
          · exact Or.inl (hold.mpr hx')
      · simp only [List.map_cons]
        refine List.nodup_cons.mpr ⟨?_, ?_⟩
        · intro h
          rcases List.mem_cons.mp h with h' | h'
          · exact hnown.2 h'
          · exact hnown.1 h'
        · have h := hinv.nodupO
          simpa using h
      · refine ⟨⟨[], ?_, ?_⟩, ⟨⟨consumed ++ [n], ?_, ?_⟩, ?_⟩⟩
        · unfold nextsOf
          rw [hstep]
          simp
        · intro c hc'
          cases hc'
        · rw [hC]
          simp
        · intro c hc'
          rcases List.mem_append.mp hc' with h | h
          · rcases hcc c h with h2 | h2
            · exact Or.inl h2
            · cases h2
          · exact Or.inr ((List.mem_singleton.mp h) ▸ List.mem_singleton_self n)
        · refine framesConsumed_mono wf (fun x hx => hx) fs [o] [o, n] ?_ hrest
          intro x hx
          rcases List.mem_singleton.mp hx with rfl
          exact Or.inr (List.mem_cons_self x [n])
    obtain ⟨hsub, hnd, ht, hown⟩ := ih hinv' st' F' hok
    refine ⟨hsub, hnd, ht, ?_⟩
    intro o' ho'
    apply hown o'
    simp only [List.map_cons] at ho' ⊢
    rcases List.mem_cons.mp ho' with rfl | h
    · exact List.mem_cons_of_mem _ (List.mem_cons_self _ _)
    · exact List.mem_cons_of_mem _ (List.mem_cons_of_mem _ h)

/-- When the cycle check succeeds, no vertex reachable from the entry id
lies on a `nextSteps` cycle. -/
theorem checkCircular_ok_no_reachable_cycle (wf : DynamicWorkflow)
    (s0 : WorkflowStep) (l : List WorkflowStep) (hsteps : wf.steps = s0 :: l)
    (hok : checkForCircularReferences wf = Except.ok ()) :
    ∀ v, ReachableFrom wf s0.id v → ¬ CycleAt wf v := by
  have hstep0 : stepOf wf s0.id = some s0 := by
    unfold stepOf
    rw [hsteps]
    exact List.find?_cons_of_pos l (by simp)
  unfold checkForCircularReferences at hok
  rw [hsteps] at hok
  dsimp only at hok
  rw [hstep0] at hok
  dsimp only at hok
  cases hcr : cycleRun wf ⟨insertSet [] s0.id, insertSet [] s0.id⟩
      [(s0.id, s0.nextSteps)] with
  | error e =>
    rw [hcr] at hok
    cases hok
  | ok stEnd =>
    have hproj := cycleRun_eq_projection wf ⟨insertSet [] s0.id, insertSet [] s0.id⟩
      [(s0.id, s0.nextSteps)] []
    rw [hcr] at hproj
    cases hG : cycleRunG wf ⟨insertSet [] s0.id, insertSet [] s0.id⟩
        [(s0.id, s0.nextSteps)] [] with
    | error e =>
      rw [hG] at hproj
      cases hproj
    | ok p =>
      obtain ⟨st', F'⟩ := p
      have hins : insertSet ([] : List String) s0.id = [s0.id] := by
        unfold insertSet
        simp
      have hinv : CycleInv wf ⟨insertSet [] s0.id, insertSet [] s0.id⟩
          [(s0.id, s0.nextSteps)] [] := by
        rw [hins]
        refine ⟨?_, ?_, List.nodup_nil, List.nodup_singleton _, ?_, ?_, topoList_nil wf, ?_⟩
        · intro x
          simp
        · intro x hx
          cases hx
        · intro x
          simp
        · simp
        · refine ⟨⟨[], ?_, ?_⟩, trivial⟩
          · unfold nextsOf
            rw [hstep0]
            simp
          · intro c hc
            cases hc
      obtain ⟨_, hnd, htopo, hown⟩ := cycleRunG_ok_spec wf _ _ _ hinv st' F' hG
      have hentry : s0.id ∈ F' := hown s0.id (by simp)
      rintro v ⟨lr, hchain, hv⟩ hcyc
      have hvF : v ∈ F' := topo_reach_mem wf F' htopo lr s0.id hentry hchain v hv
      exact topo_no_cycle wf F' hnd htopo hvF hcyc

/-- Successful validation implies the cycle check succeeded (the check
runs inside `validateWorkflow` and its error would propagate). -/
theorem validate_ok_cycle_ok (config : WorkflowManagerConfig) (wf : DynamicWorkflow)
    (hv : validateWorkflow config wf = Except.ok ()) :
    checkForCircularReferences wf = Except.ok () := by
  unfold validateWorkflow at hv
  by_cases h1 : wf.task = ""
  · rw [if_pos h1] at hv
    cases hv
  · rw [if_neg h1] at hv
    by_cases h2 : wf.steps = []
    · rw [if_pos h2] at hv
      cases hv
    · rw [if_neg h2] at hv
      cases hvs : validateSteps config wf wf.steps with
      | error e =>
        rw [hvs] at hv
        cases hv
      | ok u =>
        cases u
        rw [hvs] at hv
        dsimp only at hv
        cases hcc : checkForCircularReferences wf with
        | error e =>
          rw [hcc] at hv
          cases hv
        | ok u =>
          cases u
          rfl

/-- C8: a workflow whose entry step reaches a `nextSteps` cycle always
makes the cycle check terminate with a circular-reference violation (the
check is a total function, so it cannot hang), and validation as a whole
terminates with an error. -/
theorem C8_reachable_cycle_fails_validation (config : WorkflowManagerConfig)
    (wf : DynamicWorkflow) (s0 : WorkflowStep) (l : List WorkflowStep) (v : String)
    (hsteps : wf.steps = s0 :: l)
    (hreach : ReachableFrom wf s0.id v)
    (hcyc : CycleAt wf v) :
    (∃ n, checkForCircularReferences wf = Except.error (circularMsg n)) ∧
      (∃ m, validateWorkflow config wf = Except.error m) := by
  have hnotok : checkForCircularReferences wf ≠ Except.ok () := fun hok =>
    checkCircular_ok_no_reachable_cycle wf s0 l hsteps hok v hreach hcyc
  have hshape : ∀ e, checkForCircularReferences wf = Except.error e →
      ∃ n, e = circularMsg n := by
    intro e he
    unfold checkForCircularReferences at he
    rw [hsteps] at he
    dsimp only at he
    cases hso : stepOf wf s0.id with
    | none =>
      rw [hso] at he
      cases he
    | some step =>
      rw [hso] at he
      dsimp only at he
      cases hcr : cycleRun wf ⟨insertSet [] s0.id, insertSet [] s0.id⟩
          [(s0.id, step.nextSteps)] with
      | error e' =>
        rw [hcr] at he
        cases he
        exact cycleRun_error_shape wf _ _ e hcr
      | ok stEnd =>
        rw [hcr] at he
        cases he
  constructor
  · cases hc : checkForCircularReferences wf with
    | error e =>
      obtain ⟨n, rfl⟩ := hshape e hc
      exact ⟨n, rfl⟩
    | ok u =>
      cases u
      exact absurd hc hnotok
  · cases hv : validateWorkflow config wf with
    | error e => exact ⟨e, rfl⟩
    | ok u =>
      cases u
      exact absurd (validate_ok_cycle_ok config wf hv) hnotok

/-- C8 witness: the two-step cycle a → b → a is rejected with the
circular-reference violation for a, and validation fails. -/
theorem C8_witness :
    (∃ n, checkForCircularReferences wCyc = Except.error (circularMsg n)) ∧
      (∃ m, validateWorkflow cfgEmpty wCyc = Except.error m) :=
  C8_reachable_cycle_fails_validation cfgEmpty wCyc (mkStep "a" "d" ["b"])
    [mkStep "b" "d" ["a"]] "a" rfl
    ⟨[], trivial, by simp [mkStep]⟩
    ⟨["b", "a"],
      ⟨by simp [Edge, nextsOf, stepOf, wCyc, mkStep, List.find?],
        by simp [Edge, nextsOf, stepOf, wCyc, mkStep, List.find?], trivial⟩,
      by simp⟩

end SkynetWF
